import Mathlib

/-
Verification development for the timeout scheduler of the userspace TCP
implementation (src/tcp/internal/timeout/timeout.go).

Part 1: a shallow embedding of the deadline heap.  The Go code stores
timeouts in `d.timeouts : heapTimeouts` ([]*Timeout) and manipulates it
exclusively through the standard library container/heap package with the
comparison `heapTimeouts.Less i j = (*h)[i].t.Before((*h)[j].t)`
(timeout.go lines 257-267).  Deadlines are monotonic-clock instants with
nanosecond resolution (NowMonotonic, lines 269-274); we model an instant
as an Int (nanoseconds), so `Time.Before` is `<` and `Time.After` is `>`.

A heap element is a pair (record id, deadline).  The functions below are
the container/heap algorithms specialised to this comparison:
  - `siftup`  is container/heap's `up` (compare child with parent
    (j-1)/2, swap while Less(child, parent));
  - `siftdown` is container/heap's `down` on the prefix of length n
    (pick the smaller of children 2i+1, 2i+2, swap while Less(child, i));
  - `heapPush l x` is heap.Push: append x, then up at the last index;
  - `heapPop l` is heap.Pop: swap index 0 with the last index, down over
    the shortened prefix, then remove and return the last element.
-/

namespace TimeoutModel

/-- Entry of the deadline heap: record identifier paired with the record
deadline in monotonic nanoseconds (the field `t` of a `*Timeout`). -/
abbrev Entry := Nat × Int

def dflt : Entry := (0, 0)

/-- Key comparison of heapTimeouts.Less: deadlines compared with
`time.Time.Before`, that is, strict `<` on the nanosecond value. -/
def keyAt (l : List Entry) (i : Nat) : Int := (l.getD i dflt).2

/-- Exchange of two positions, as heapTimeouts.Swap. -/
def hswap (l : List Entry) (i j : Nat) : List Entry :=
  (l.set i (l.getD j dflt)).set j (l.getD i dflt)

/-- Sift-up of container/heap (`up`), structurally recursive on a fuel
argument so that it evaluates inside the kernel; the fuel strictly
exceeds the cursor index, which decreases on every recursive call, so
the fuel is never exhausted. -/
def siftupGo : Nat → List Entry → Nat → List Entry
  | 0, l, _ => l
  | _+1, l, 0 => l
  | fuel+1, l, j+1 =>
    if keyAt l (j+1) < keyAt l (j / 2) then
      siftupGo fuel (hswap l (j / 2) (j+1)) (j / 2)
    else l

/-- Sift-up of container/heap (`up`): while the element at the cursor is
Less than its parent, exchange them and move the cursor to the parent.
The cursor value is the index; index 0 has no parent and stops. -/
def siftup (l : List Entry) (j : Nat) : List Entry := siftupGo (j+1) l j

theorem siftupGo_fuel (f1 : Nat) : ∀ (f2 : Nat) (l : List Entry) (j : Nat),
    j < f1 → j < f2 → siftupGo f1 l j = siftupGo f2 l j := by
  induction f1 with
  | zero => intro f2 l j h1 h2; omega
  | succ g1 ih =>
    intro f2 l j h1 h2
    cases f2 with
    | zero => omega
    | succ g2 =>
      cases j with
      | zero => rfl
      | succ m =>
        show (if keyAt l (m+1) < keyAt l (m / 2) then
            siftupGo g1 (hswap l (m / 2) (m+1)) (m / 2) else l)
          = (if keyAt l (m+1) < keyAt l (m / 2) then
            siftupGo g2 (hswap l (m / 2) (m+1)) (m / 2) else l)
        by_cases hc : keyAt l (m+1) < keyAt l (m / 2)
        · rw [if_pos hc, if_pos hc]
          exact ih g2 _ (m / 2) (by omega) (by omega)
        · rw [if_neg hc, if_neg hc]

theorem siftup_zero (l : List Entry) : siftup l 0 = l := rfl

theorem siftup_succ (l : List Entry) (j : Nat) :
    siftup l (j+1) = if keyAt l (j+1) < keyAt l (j / 2) then
      siftup (hswap l (j / 2) (j+1)) (j / 2) else l := by
  show (if keyAt l (j+1) < keyAt l (j / 2) then
      siftupGo (j+1) (hswap l (j / 2) (j+1)) (j / 2) else l) = _
  by_cases hc : keyAt l (j+1) < keyAt l (j / 2)
  · rw [if_pos hc, if_pos hc]
    exact siftupGo_fuel (j+1) (j / 2 + 1) _ (j / 2) (by omega) (by omega)
  · rw [if_neg hc, if_neg hc]

/-- Sift-down of container/heap (`down`), structurally recursive on a
fuel argument so that it evaluates inside the kernel; the fuel bounds
n - i, which decreases on every recursive call. -/
def siftdownGo : Nat → List Entry → Nat → Nat → List Entry
  | 0, l, _, _ => l
  | fuel+1, l, i, n =>
    if 2*i+1 < n then
      if 2*i+2 < n ∧ keyAt l (2*i+2) < keyAt l (2*i+1) then
        if keyAt l (2*i+2) < keyAt l i then
          siftdownGo fuel (hswap l i (2*i+2)) (2*i+2) n
        else l
      else
        if keyAt l (2*i+1) < keyAt l i then
          siftdownGo fuel (hswap l i (2*i+1)) (2*i+1) n
        else l
    else l

/-- Sift-down of container/heap (`down`) over the logical prefix of
length n: pick the Less of the two children, exchange while it is Less
than the cursor. -/
def siftdown (l : List Entry) (i n : Nat) : List Entry := siftdownGo n l i n

theorem siftdownGo_fuel (f1 : Nat) : ∀ (f2 : Nat) (l : List Entry) (i n : Nat),
    n - i ≤ f1 → n - i ≤ f2 → siftdownGo f1 l i n = siftdownGo f2 l i n := by
  induction f1 with
  | zero =>
    intro f2 l i n h1 h2
    cases f2 with
    | zero => rfl
    | succ g2 =>
      show l = if 2*i+1 < n then _ else l
      rw [if_neg (by omega)]
  | succ g1 ih =>
    intro f2 l i n h1 h2
    cases f2 with
    | zero =>
      show (if 2*i+1 < n then _ else l) = l
      rw [if_neg (by omega)]
    | succ g2 =>
      simp only [siftdownGo]
      by_cases hb : 2*i+1 < n
      · rw [if_pos hb, if_pos hb]
        by_cases hc : 2*i+2 < n ∧ keyAt l (2*i+2) < keyAt l (2*i+1)
        · rw [if_pos hc, if_pos hc]
          by_cases hd : keyAt l (2*i+2) < keyAt l i
          · rw [if_pos hd, if_pos hd]
            exact ih g2 _ (2*i+2) n (by omega) (by omega)
          · rw [if_neg hd, if_neg hd]
        · rw [if_neg hc, if_neg hc]
          by_cases hd : keyAt l (2*i+1) < keyAt l i
          · rw [if_pos hd, if_pos hd]
            exact ih g2 _ (2*i+1) n (by omega) (by omega)
          · rw [if_neg hd, if_neg hd]
      · rw [if_neg hb, if_neg hb]

theorem siftdown_eq (l : List Entry) (i n : Nat) :
    siftdown l i n = if 2*i+1 < n then
      if 2*i+2 < n ∧ keyAt l (2*i+2) < keyAt l (2*i+1) then
        if keyAt l (2*i+2) < keyAt l i then siftdown (hswap l i (2*i+2)) (2*i+2) n
        else l
      else
        if keyAt l (2*i+1) < keyAt l i then siftdown (hswap l i (2*i+1)) (2*i+1) n
        else l
    else l := by
  cases n with
  | zero =>
    show l = if 2*i+1 < 0 then _ else l
    rw [if_neg (by omega)]
  | succ k =>
    show (if 2*i+1 < k+1 then
        if 2*i+2 < k+1 ∧ keyAt l (2*i+2) < keyAt l (2*i+1) then
          if keyAt l (2*i+2) < keyAt l i then
            siftdownGo k (hswap l i (2*i+2)) (2*i+2) (k+1)
          else l
        else
          if keyAt l (2*i+1) < keyAt l i then
            siftdownGo k (hswap l i (2*i+1)) (2*i+1) (k+1)
          else l
      else l) = _
    by_cases hb : 2*i+1 < k+1
    · rw [if_pos hb, if_pos hb]
      by_cases hc : 2*i+2 < k+1 ∧ keyAt l (2*i+2) < keyAt l (2*i+1)
      · rw [if_pos hc, if_pos hc]
        by_cases hd : keyAt l (2*i+2) < keyAt l i
        · rw [if_pos hd, if_pos hd]
          exact siftdownGo_fuel k (k+1) _ (2*i+2) (k+1) (by omega) (by omega)
        · rw [if_neg hd, if_neg hd]
      · rw [if_neg hc, if_neg hc]
        by_cases hd : keyAt l (2*i+1) < keyAt l i
        · rw [if_pos hd, if_pos hd]
          exact siftdownGo_fuel k (k+1) _ (2*i+1) (k+1) (by omega) (by omega)
        · rw [if_neg hd, if_neg hd]
    · rw [if_neg hb, if_neg hb]

/-- Push of container/heap: append, then sift the new last element up. -/
def heapPush (l : List Entry) (x : Entry) : List Entry :=
  siftup (l ++ [x]) l.length

/-- Pop of container/heap: swap the root with the last element, sift the
new root down over the shortened prefix, then split off the last element
(the original root) as the returned value. -/
def heapPop (l : List Entry) : Entry × List Entry :=
  let n := l.length - 1
  let l2 := siftdown (hswap l 0 n) 0 n
  (l2.getD n dflt, l2.take n)

/-- Invariant of a binary min-heap, as documented by container/heap:
every element other than the root is not Less than its parent. -/
def heapInv (l : List Entry) : Prop :=
  ∀ j, j < l.length → 0 < j → keyAt l ((j-1)/2) ≤ keyAt l j

/-- Invariant restricted to the logical prefix of length n (used while a
pop is in flight and the last slot holds the outgoing root). -/
def heapInvN (l : List Entry) (n : Nat) : Prop :=
  ∀ j, j < n → 0 < j → keyAt l ((j-1)/2) ≤ keyAt l j

/- Basic list index lemmas. -/

theorem getD_set_self {α : Type} (l : List α) (i : Nat) (v d : α) (h : i < l.length) :
    (l.set i v).getD i d = v := by
  induction l generalizing i with
  | nil => simp at h
  | cons a tl ih =>
    cases i with
    | zero => simp [List.set, List.getD]
    | succ k =>
      simp only [List.set, List.getD] at *
      exact ih k (by simpa using h)

theorem getD_set_ne {α : Type} (l : List α) (i j : Nat) (v d : α) (h : i ≠ j) :
    (l.set i v).getD j d = l.getD j d := by
  induction l generalizing i j with
  | nil => simp [List.set]
  | cons a tl ih =>
    cases i with
    | zero =>
      cases j with
      | zero => exact absurd rfl h
      | succ k => simp [List.set, List.getD]
    | succ m =>
      cases j with
      | zero => simp [List.set, List.getD]
      | succ k =>
        simp only [List.set, List.getD]
        exact ih m k (by omega)

theorem getD_append_lt {α : Type} (l l2 : List α) (i : Nat) (d : α) (h : i < l.length) :
    (l ++ l2).getD i d = l.getD i d := by
  induction l generalizing i with
  | nil => simp at h
  | cons a tl ih =>
    cases i with
    | zero => simp [List.getD]
    | succ k =>
      simp only [List.cons_append, List.getD] at *
      exact ih k (by simpa using h)

theorem getD_hswap (l : List Entry) (i j p : Nat) (hi : i < l.length) (hj : j < l.length) :
    (hswap l i j).getD p dflt =
      if p = j then l.getD i dflt else if p = i then l.getD j dflt else l.getD p dflt := by
  unfold hswap
  by_cases hpj : p = j
  · subst hpj
    simp only [if_pos rfl]
    exact getD_set_self _ p _ _ (by simpa using hj)
  · rw [getD_set_ne _ j p _ _ (fun h => hpj h.symm)]
    by_cases hpi : p = i
    · subst hpi
      simp only [if_neg hpj, if_pos rfl]
      exact getD_set_self _ p _ _ hi
    · rw [getD_set_ne _ i p _ _ (fun h => hpi h.symm)]
      simp [hpj, hpi]

theorem keyAt_hswap (l : List Entry) (i j p : Nat) (hi : i < l.length) (hj : j < l.length) :
    keyAt (hswap l i j) p =
      if p = j then keyAt l i else if p = i then keyAt l j else keyAt l p := by
  unfold keyAt
  rw [getD_hswap l i j p hi hj]
  split_ifs <;> rfl

theorem hswap_length (l : List Entry) (i j : Nat) : (hswap l i j).length = l.length := by
  simp [hswap]

theorem siftup_length (l : List Entry) (j : Nat) : (siftup l j).length = l.length := by
  induction j using Nat.strong_induction_on generalizing l with
  | _ j ih =>
    cases j with
    | zero => rw [siftup_zero]
    | succ m =>
      rw [siftup_succ]
      split
      · rw [ih (m / 2) (by omega), hswap_length]
      · rfl

theorem siftdown_length (l : List Entry) (i n : Nat) : (siftdown l i n).length = l.length := by
  rw [siftdown_eq]
  split
  · split
    · split
      · rw [siftdown_length, hswap_length]
      · rfl
    · split
      · rw [siftdown_length, hswap_length]
      · rfl
  · rfl
termination_by n - i
decreasing_by
  · simp_wf; omega
  · simp_wf; omega

theorem siftdown_getD_of_ge (l : List Entry) (i n m : Nat) (hm : n ≤ m) :
    (siftdown l i n).getD m dflt = l.getD m dflt := by
  rw [siftdown_eq]
  split
  · rename_i h1
    have hmod : ∀ j, j < n → (hswap l i j).getD m dflt = l.getD m dflt := by
      intro j hjn
      by_cases hlen : m < l.length
      · rw [getD_hswap l i j m (by omega) (by omega)]
        have : m ≠ j := by omega
        have : m ≠ i := by omega
        simp_all
      · have h2 : (hswap l i j).getD m dflt = dflt := by
          apply List.getD_eq_default
          rw [hswap_length]; omega
        have h3 : l.getD m dflt = dflt := by
          apply List.getD_eq_default; omega
        rw [h2, h3]
    split
    · split
      · rw [siftdown_getD_of_ge _ _ _ _ hm, hmod (2*i+2) (by omega)]
      · rfl
    · split
      · rw [siftdown_getD_of_ge _ _ _ _ hm, hmod (2*i+1) (by omega)]
      · rfl
  · rfl
termination_by n - i
decreasing_by
  · simp_wf; omega
  · simp_wf; omega

/- Permutation lemmas: the heap operations rearrange and add/remove
elements but never invent or duplicate them. -/

theorem set_getD_self {α : Type} (l : List α) (i : Nat) (d : α) :
    l.set i (l.getD i d) = l := by
  induction l generalizing i with
  | nil => simp
  | cons a tl ih =>
    cases i with
    | zero => simp [List.set]
    | succ k => simp only [List.set, List.getD_cons_succ, ih]

theorem cons_set_perm {α : Type} (tl : List α) (k : Nat) (a d : α) (hk : k < tl.length) :
    (tl.getD k d :: tl.set k a).Perm (a :: tl) := by
  induction tl generalizing k with
  | nil => simp at hk
  | cons b tt ih =>
    cases k with
    | zero =>
      simp only [List.getD_cons_zero, List.set]
      exact List.Perm.swap a b tt
    | succ m =>
      simp only [List.getD_cons_succ, List.set]
      have h1 : (tt.getD m d :: b :: tt.set m a).Perm (b :: tt.getD m d :: tt.set m a) :=
        List.Perm.swap b (tt.getD m d) (tt.set m a)
      have h2 : (tt.getD m d :: tt.set m a).Perm (a :: tt) := ih m (by simpa using hk)
      exact h1.trans ((h2.cons b).trans (List.Perm.swap a b tt))

theorem set_set_perm {α : Type} (l : List α) (i j : Nat) (d : α)
    (hij : i < j) (hj : j < l.length) :
    ((l.set i (l.getD j d)).set j (l.getD i d)).Perm l := by
  induction l generalizing i j with
  | nil => simp at hj
  | cons a tl ih =>
    cases i with
    | zero =>
      obtain ⟨k, rfl⟩ : ∃ k, j = k + 1 := ⟨j - 1, by omega⟩
      simp only [List.getD_cons_succ, List.getD_cons_zero, List.set]
      exact cons_set_perm tl k a d (by simpa using hj)
    | succ m =>
      obtain ⟨k, rfl⟩ : ∃ k, j = k + 1 := ⟨j - 1, by omega⟩
      simp only [List.getD_cons_succ, List.set]
      exact (ih m k (by omega) (by simpa using hj)).cons a

theorem hswap_perm (l : List Entry) (i j : Nat) (hij : i ≤ j) (hj : j < l.length) :
    (hswap l i j).Perm l := by
  rcases Nat.lt_or_ge i j with h | h
  · exact set_set_perm l i j dflt h hj
  · have hij2 : i = j := by omega
    subst hij2
    unfold hswap
    rw [set_getD_self, set_getD_self]

theorem siftup_perm (l : List Entry) (j : Nat) (hj : j < l.length) : (siftup l j).Perm l := by
  induction j using Nat.strong_induction_on generalizing l with
  | _ j ih =>
    cases j with
    | zero =>
      rw [siftup_zero]
    | succ m =>
      rw [siftup_succ]
      split
      · have hlen : (hswap l (m / 2) (m+1)).length = l.length := hswap_length _ _ _
        have h1 : (siftup (hswap l (m / 2) (m+1)) (m / 2)).Perm (hswap l (m / 2) (m+1)) :=
          ih (m / 2) (by omega) _ (by omega)
        exact h1.trans (hswap_perm l (m / 2) (m+1) (by omega) hj)
      · exact List.Perm.refl l

theorem siftdown_perm (l : List Entry) (i n : Nat) (hn : n ≤ l.length) :
    (siftdown l i n).Perm l := by
  rw [siftdown_eq]
  split
  · rename_i h1
    split
    · split
      · rename_i hc hlt
        exact (siftdown_perm (hswap l i (2*i+2)) (2*i+2) n
            (by rw [hswap_length]; exact hn)).trans
          (hswap_perm l i (2*i+2) (by omega) (by omega))
      · exact List.Perm.refl l
    · split
      · exact (siftdown_perm (hswap l i (2*i+1)) (2*i+1) n
            (by rw [hswap_length]; exact hn)).trans
          (hswap_perm l i (2*i+1) (by omega) (by omega))
      · exact List.Perm.refl l
  · exact List.Perm.refl l
termination_by n - i
decreasing_by
  · simp_wf; omega
  · simp_wf; omega

theorem heapPush_perm (l : List Entry) (x : Entry) : (heapPush l x).Perm (x :: l) := by
  unfold heapPush
  have h1 : (siftup (l ++ [x]) l.length).Perm (l ++ [x]) :=
    siftup_perm (l ++ [x]) l.length (by simp)
  exact h1.trans (List.perm_append_singleton x l)

theorem heapPush_ne_nil (l : List Entry) (x : Entry) : heapPush l x ≠ [] := by
  intro h
  have := (heapPush_perm l x).length_eq
  rw [h] at this
  simp at this

theorem heapPop_perm (l : List Entry) (h : l ≠ []) :
    ((heapPop l).2 ++ [(heapPop l).1]).Perm l := by
  unfold heapPop
  have hlen : 0 < l.length := List.length_pos.mpr h
  set n := l.length - 1 with hn
  have h0 : 0 < l.length := hlen
  have hnl : n < l.length := by omega
  have hperm1 : (hswap l 0 n).Perm l := hswap_perm l 0 n (by omega) hnl
  have hperm2 : (siftdown (hswap l 0 n) 0 n).Perm (hswap l 0 n) :=
    siftdown_perm _ 0 n (by rw [hswap_length]; omega)
  set l2 := siftdown (hswap l 0 n) 0 n with hl2
  have hlen2 : l2.length = l.length := by
    rw [hl2, siftdown_length, hswap_length]
  have hsplit : l2.take n ++ [l2.getD n dflt] = l2 := by
    have hdrop : l2.drop n = [l2.getD n dflt] := by
      have h1 : n < l2.length := by omega
      have h2 : l2.drop n = l2.getD n dflt :: l2.drop (n+1) := by
        rw [List.getD_eq_getElem l2 dflt h1]
        exact (List.getElem_cons_drop l2 n h1).symm
      have h3 : l2.drop (n+1) = [] := by
        apply List.drop_eq_nil_of_le; omega
      rw [h2, h3]
    conv_rhs => rw [← List.take_append_drop n l2]
    rw [hdrop]
  simp only []
  rw [hsplit]
  exact hperm2.trans hperm1

theorem heapPop_fst (l : List Entry) (h : l ≠ []) : (heapPop l).1 = l.getD 0 dflt := by
  unfold heapPop
  have hlen : 0 < l.length := List.length_pos.mpr h
  set n := l.length - 1 with hn
  simp only []
  rw [siftdown_getD_of_ge _ 0 n n (le_refl n)]
  rw [getD_hswap l 0 n n hlen (by omega)]
  simp

theorem getD_take {α : Type} (l : List α) (n p : Nat) (d : α) (hp : p < n) :
    (l.take n).getD p d = l.getD p d := by
  induction l generalizing n p with
  | nil => simp
  | cons a tl ih =>
    cases n with
    | zero => omega
    | succ m =>
      cases p with
      | zero => simp [List.take]
      | succ q =>
        simp only [List.take, List.getD_cons_succ]
        exact ih m q (by omega)

/- Heap shape preservation: sift-up restores the invariant after a push. -/

theorem siftup_heapInv (l : List Entry) (j : Nat) (hj : j < l.length)
    (h1 : ∀ c, c < l.length → 0 < c → c ≠ j → keyAt l ((c-1)/2) ≤ keyAt l c)
    (h2 : ∀ c, c < l.length → 0 < c → (c-1)/2 = j → 0 < j →
      keyAt l ((j-1)/2) ≤ keyAt l c) :
    heapInv (siftup l j) := by
  induction j using Nat.strong_induction_on generalizing l with
  | _ j ih =>
    cases j with
    | zero =>
      rw [siftup_zero]
      intro c hc h0c
      exact h1 c hc h0c (by omega)
    | succ m =>
      rw [siftup_succ]
      split
      · rename_i hlt
        have hp : m / 2 < l.length := by omega
        have e1 : ∀ p, p ≠ m + 1 → p ≠ m / 2 →
            keyAt (hswap l (m / 2) (m+1)) p = keyAt l p := by
          intro p hp1 hp2
          rw [keyAt_hswap l (m / 2) (m+1) p hp hj]
          simp [hp1, hp2]
        have e2 : keyAt (hswap l (m / 2) (m+1)) (m+1) = keyAt l (m / 2) := by
          rw [keyAt_hswap l (m / 2) (m+1) (m+1) hp hj]
          simp
        have e3 : keyAt (hswap l (m / 2) (m+1)) (m / 2) = keyAt l (m+1) := by
          rw [keyAt_hswap l (m / 2) (m+1) (m / 2) hp hj]
          simp [show ¬ (m / 2 = m + 1) by omega]
        apply ih (m / 2) (by omega)
        · rw [hswap_length]; omega
        · intro c hc h0c hne
          rw [hswap_length] at hc
          by_cases hB1 : c = m + 1
          · subst hB1
            rw [show (m + 1 - 1) / 2 = m / 2 by omega, e3, e2]
            exact le_of_lt hlt
          · rw [e1 c hB1 hne]
            by_cases hA1 : (c-1)/2 = m + 1
            · rw [hA1, e2]
              have h3 := h2 c hc h0c hA1 (by omega)
              simpa using h3
            · by_cases hA2 : (c-1)/2 = m / 2
              · rw [hA2, e3]
                have h3 := h1 c hc h0c hB1
                rw [hA2] at h3
                exact le_trans (le_of_lt hlt) h3
              · rw [e1 _ hA1 hA2]
                exact h1 c hc h0c hB1
        · intro c hc h0c hpar h0i
          rw [hswap_length] at hc
          have hgp1 : (m / 2 - 1) / 2 ≠ m + 1 := by omega
          have hgp2 : (m / 2 - 1) / 2 ≠ m / 2 := by omega
          rw [e1 _ hgp1 hgp2]
          by_cases hc1 : c = m + 1
          · subst hc1
            rw [e2]
            exact h1 (m / 2) hp h0i (by omega)
          · have hc2 : c ≠ m / 2 := by omega
            rw [e1 c hc1 hc2]
            have ha := h1 c hc h0c hc1
            rw [hpar] at ha
            exact le_trans (h1 (m / 2) hp h0i (by omega)) ha
      · rename_i hge
        intro c hc h0c
        by_cases hcm : c = m + 1
        · subst hcm
          rw [show (m + 1 - 1) / 2 = m / 2 by omega]
          exact le_of_not_lt hge
        · exact h1 c hc h0c hcm

theorem heapPush_heapInv (l : List Entry) (x : Entry) (h : heapInv l) :
    heapInv (heapPush l x) := by
  unfold heapPush
  apply siftup_heapInv (l ++ [x]) l.length (by simp)
  · intro c hc h0c hne
    rw [List.length_append, List.length_singleton] at hc
    have hcl : c < l.length := by omega
    have hpl : (c-1)/2 < l.length := by omega
    unfold keyAt
    rw [getD_append_lt l [x] c dflt hcl, getD_append_lt l [x] _ dflt hpl]
    exact h c hcl h0c
  · intro c hc h0c hpar h0j
    exfalso
    rw [List.length_append, List.length_singleton] at hc
    omega

/- Heap shape preservation: sift-down restores the invariant on the
logical prefix after the root is replaced by the last element. -/

theorem siftdown_swap_h1 (l : List Entry) (i n j : Nat) (hn : n ≤ l.length)
    (hj : j = 2*i+1 ∨ j = 2*i+2) (hjn : j < n)
    (hmin1 : keyAt l j ≤ keyAt l (2*i+1))
    (hmin2 : 2*i+2 < n → keyAt l j ≤ keyAt l (2*i+2))
    (hlt : keyAt l j < keyAt l i)
    (h1 : ∀ c, c < n → 0 < c → (c-1)/2 ≠ i → keyAt l ((c-1)/2) ≤ keyAt l c)
    (h2 : ∀ c, c < n → 0 < c → (c-1)/2 = i → 0 < i →
      keyAt l ((i-1)/2) ≤ keyAt l c) :
    (∀ c, c < n → 0 < c → (c-1)/2 ≠ j →
      keyAt (hswap l i j) ((c-1)/2) ≤ keyAt (hswap l i j) c)
    ∧ (∀ c, c < n → 0 < c → (c-1)/2 = j → 0 < j →
      keyAt (hswap l i j) ((j-1)/2) ≤ keyAt (hswap l i j) c) := by
  have hij : i < j := by omega
  have hil : i < l.length := by omega
  have hjl : j < l.length := by omega
  have e1 : ∀ p, p ≠ j → p ≠ i → keyAt (hswap l i j) p = keyAt l p := by
    intro p hp1 hp2
    rw [keyAt_hswap l i j p hil hjl]
    simp [hp1, hp2]
  have e2 : keyAt (hswap l i j) j = keyAt l i := by
    rw [keyAt_hswap l i j j hil hjl]
    simp
  have e3 : keyAt (hswap l i j) i = keyAt l j := by
    rw [keyAt_hswap l i j i hil hjl]
    simp [show ¬ (i = j) by omega]
  constructor
  · intro c hc h0c hcpj
    by_cases hcj : c = j
    · subst hcj
      rw [show (c-1)/2 = i by omega, e3, e2]
      exact le_of_lt hlt
    · by_cases hci : c = i
      · subst hci
        rw [e1 _ (by omega) (by omega), e3]
        exact h2 j hjn (by omega) (by omega) (by omega)
      · rw [e1 c hcj hci]
        by_cases hpi : (c-1)/2 = i
        · rw [hpi, e3]
          have hc12 : c = 2*i+1 ∨ c = 2*i+2 := by omega
          rcases hc12 with rfl | rfl
          · exact hmin1
          · exact hmin2 hc
        · rw [e1 _ hcpj hpi]
          exact h1 c hc h0c hpi
  · intro c hc h0c hcpj h0j
    have hcgt : j < c := by omega
    rw [show (j-1)/2 = i by omega, e3, e1 c (by omega) (by omega)]
    have ha := h1 c hc h0c (by omega)
    rw [hcpj] at ha
    exact ha

theorem siftdown_heapInvN (l : List Entry) (i n : Nat) (hn : n ≤ l.length)
    (h1 : ∀ c, c < n → 0 < c → (c-1)/2 ≠ i → keyAt l ((c-1)/2) ≤ keyAt l c)
    (h2 : ∀ c, c < n → 0 < c → (c-1)/2 = i → 0 < i →
      keyAt l ((i-1)/2) ≤ keyAt l c) :
    heapInvN (siftdown l i n) n := by
  rw [siftdown_eq]
  split
  · rename_i hj1
    split
    · rename_i hc2
      split
      · rename_i hlt
        have haux := siftdown_swap_h1 l i n (2*i+2) hn (Or.inr rfl) (by omega)
          (le_of_lt hc2.2) (fun _ => le_refl _) hlt h1 h2
        exact siftdown_heapInvN (hswap l i (2*i+2)) (2*i+2) n
          (by rw [hswap_length]; exact hn) haux.1 haux.2
      · rename_i hge
        intro c hc h0c
        by_cases hp : (c-1)/2 = i
        · have hc12 : c = 2*i+1 ∨ c = 2*i+2 := by omega
          have hik : keyAt l i ≤ keyAt l (2*i+2) := le_of_not_lt hge
          rcases hc12 with rfl | rfl
          · rw [show (2*i+1-1)/2 = i by omega]
            exact le_trans hik (le_of_lt hc2.2)
          · rw [show (2*i+2-1)/2 = i by omega]
            exact hik
        · exact h1 c hc h0c hp
    · rename_i hc2
      split
      · rename_i hlt
        have hmin2 : 2*i+2 < n → keyAt l (2*i+1) ≤ keyAt l (2*i+2) := by
          intro hlt2
          by_contra hcon
          exact hc2 ⟨hlt2, lt_of_not_le hcon⟩
        have haux := siftdown_swap_h1 l i n (2*i+1) hn (Or.inl rfl) hj1
          (le_refl _) hmin2 hlt h1 h2
        exact siftdown_heapInvN (hswap l i (2*i+1)) (2*i+1) n
          (by rw [hswap_length]; exact hn) haux.1 haux.2
      · rename_i hge
        intro c hc h0c
        by_cases hp : (c-1)/2 = i
        · have hc12 : c = 2*i+1 ∨ c = 2*i+2 := by omega
          have hik : keyAt l i ≤ keyAt l (2*i+1) := le_of_not_lt hge
          have hmin2 : 2*i+2 < n → keyAt l (2*i+1) ≤ keyAt l (2*i+2) := by
            intro hlt2
            by_contra hcon
            exact hc2 ⟨hlt2, lt_of_not_le hcon⟩
          rcases hc12 with rfl | rfl
          · rw [show (2*i+1-1)/2 = i by omega]
            exact hik
          · rw [show (2*i+2-1)/2 = i by omega]
            exact le_trans hik (hmin2 hc)
        · exact h1 c hc h0c hp
  · rename_i hj1
    intro c hc h0c
    by_cases hp : (c-1)/2 = i
    · exfalso; omega
    · exact h1 c hc h0c hp
termination_by n - i
decreasing_by
  · simp_wf; omega
  · simp_wf; omega

theorem heapPop_heapInv (l : List Entry) (h : heapInv l) : heapInv ((heapPop l).2) := by
  unfold heapPop
  by_cases hnil : l = []
  · subst hnil
    intro j hj h0j
    simp at hj
  · have hlen : 0 < l.length := List.length_pos.mpr hnil
    set n := l.length - 1 with hn
    have hInvN : heapInvN (siftdown (hswap l 0 n) 0 n) n := by
      apply siftdown_heapInvN _ 0 n (by rw [hswap_length]; omega)
      · intro c hc h0c hne
        have key_eq : ∀ p, p ≠ 0 → p ≠ n → keyAt (hswap l 0 n) p = keyAt l p := by
          intro p hp0 hpn
          rw [keyAt_hswap l 0 n p (by omega) (by omega)]
          simp [hpn, hp0]
        rw [key_eq c (by omega) (by omega), key_eq _ hne (by omega)]
        exact h c (by omega) h0c
      · intro c hc h0c hpar h0i
        exact absurd h0i (lt_irrefl 0)
    intro j hj h0j
    simp only [List.length_take, siftdown_length, hswap_length] at hj
    have hjn : j < n := by omega
    unfold keyAt
    rw [getD_take _ n j dflt hjn, getD_take _ n _ dflt (by omega)]
    exact hInvN j hjn h0j

/- Root minimality and membership corollaries. -/

theorem root_le (l : List Entry) (h : heapInv l) :
    ∀ j, j < l.length → keyAt l 0 ≤ keyAt l j := by
  intro j
  induction j using Nat.strong_induction_on with
  | _ j ih =>
    intro hj
    rcases Nat.eq_zero_or_pos j with h0 | h0
    · subst h0; exact le_refl _
    · exact le_trans (ih ((j-1)/2) (by omega) (by omega)) (h j hj h0)

theorem head_le_of_heapInv (l : List Entry) (h : heapInv l) (e : Entry) (he : e ∈ l) :
    (l.getD 0 dflt).2 ≤ e.2 := by
  obtain ⟨j, hj, rfl⟩ := List.mem_iff_getElem.mp he
  have := root_le l h j hj
  unfold keyAt at this
  rwa [List.getD_eq_getElem l dflt hj] at this

theorem heapPush_mem (l : List Entry) (x e : Entry) :
    e ∈ heapPush l x ↔ e = x ∨ e ∈ l := by
  rw [(heapPush_perm l x).mem_iff]
  simp

theorem heapPop_rest_mem (l : List Entry) (h : l ≠ []) (e : Entry)
    (he : e ∈ (heapPop l).2) : e ∈ l := by
  have hp := heapPop_perm l h
  exact hp.mem_iff.mp (List.mem_append_left _ he)

theorem heapPop_rest_length (l : List Entry) :
    (heapPop l).2.length = l.length - 1 := by
  unfold heapPop
  simp only [List.length_take, siftdown_length, hswap_length]
  omega

/-
Part 2: the daemon as a labelled transition system.

The Go subsystem has one dedicated worker goroutine (d.daemon, timeout.go
lines 164-239) plus client calls AddTimeout (147-162), Stop (121-141) and
Timeout.Cancel (64-66), and a monotonic clock (NowMonotonic, 269-274).
We model an interleaved execution as a sequence of atomic steps over a
global state:

  - the worker program counter WPC marks the points of d.daemon between
    which other goroutines can interleave.  Code executed while the
    worker continuously holds d.mu is one atomic step, because AddTimeout
    and Stop run entirely under d.mu and so cannot interleave with it;
    Timeout.Cancel is a single atomic store of one bit that the worker
    reads at most once per such block, so an interleaving of Cancel
    inside a block is observationally equal to one with Cancel wholly
    before or after the block.
  - clients appear only through their (atomic, d.mu-protected) calls;
    a client call is enabled exactly when the worker does not hold d.mu.
  - the clock is an Int that an environment step may advance by any
    non-negative amount; NowMonotonic reads the current value.
  - each Timeout record keeps, besides the code fields (deadline t and
    the cancel flag), history fields used only to state properties:
    when it was added and popped (logical step index), how many times its
    callback was invoked, whether the callback returned and whether the
    daemon discarded it after observing the cancel flag.

Worker program counter values and the code position each stands for:
  top        before d.mu.Lock() at line 166 (holds nothing)
  waiting    inside d.cond.Wait() at line 174 (d.mu released by Wait)
  sleepCheck at line 188, holding d.mu, about to peek and test the clock
  sleeping   inside the select at lines 194-197 (d.mu released, 193)
  lockingExt between d.mu.Unlock() (211) and d.locker.Lock() (212):
             holds neither mutex, hand holds the popped record
  lockingInt2 holds d.locker, before d.mu.Lock() at line 213
  skipFire   at line 235 after the second cancel check read 1 (230):
             callback skipped, still holding both mutexes
  preFire    at line 233, both mutexes held, about to call to.f()
  inCallback to.f() is executing (both mutexes held)
  fired      to.f() returned; at line 235, still holding both mutexes
  relExt     after d.locker.Unlock() (235), before d.mu.Unlock() (237)
  done       the goroutine returned
-/

inductive WPC
  | top
  | waiting
  | sleepCheck
  | sleeping
  | lockingExt
  | lockingInt2
  | skipFire
  | preFire
  | inCallback
  | fired
  | relExt
  | done
deriving DecidableEq, Repr

/-- Record state: the code fields of a *Timeout (deadline `t` in
monotonic nanoseconds, the atomic `cancel` flag) together with pure
history fields that instrument the execution for the specification. -/
structure Rec where
  t : Int
  cancel : Bool
  addedAt : Nat
  poppedAt : Option Nat
  fireCount : Nat
  ended : Bool
  discarded : Bool
deriving DecidableEq, Repr

/-- Daemon state.  `recs` is the registry of every record ever created
by AddTimeout, indexed by creation order; `heap` is d.timeouts as
(id, deadline) pairs; `hand` is the record popped at line 205 while the
worker carries it through the lock-order dance; `stopped` is d.stopped;
`stopRet` records that some call of Stop has returned; `wake` is the
one-slot channel d.wake (true = a token is buffered); `awoken` records
that a Broadcast was delivered to a worker blocked in cond.Wait;
`clock` is the monotonic clock; `tick` counts steps; `extAfterStop`
counts acquisitions of d.locker by the worker that happen after a Stop
has returned. -/
structure State where
  recs : List Rec
  heap : List Entry
  hand : Option Entry
  wpc : WPC
  stopped : Bool
  stopRet : Bool
  wake : Bool
  awoken : Bool
  clock : Int
  tick : Nat
  extAfterStop : Nat
deriving DecidableEq, Repr

/-- Worker positions at which it does not hold the internal mutex d.mu:
client calls of AddTimeout and Stop (which lock d.mu) are enabled
exactly there. -/
def muFree : WPC → Bool
  | .top => true
  | .waiting => true
  | .sleeping => true
  | .lockingExt => true
  | .lockingInt2 => true
  | .done => true
  | _ => false

/-- Worker positions at which it holds the external mutex d.locker. -/
def lockerHeld : WPC → Bool
  | .lockingInt2 => true
  | .skipFire => true
  | .preFire => true
  | .inCallback => true
  | .fired => true
  | _ => false

/-- Worker positions at which `hand` carries a popped record. -/
def handStates : WPC → Bool
  | .lockingExt => true
  | .lockingInt2 => true
  | .skipFire => true
  | .preFire => true
  | .inCallback => true
  | .fired => true
  | .relExt => true
  | _ => false

/-- Occurrences of a record id in the heap. -/
def idCount (h : List Entry) (i : Nat) : Nat := (h.map Prod.fst).count i

/-- Occurrences of a record id in the heap plus the worker's hand. -/
def occ (s : State) (i : Nat) : Nat :=
  idCount s.heap i + (match s.hand with
    | some x => if x.1 = i then 1 else 0
    | none => 0)

/-- Initial state, as established by NewDaemon (timeout.go 112-118). -/
def init : State :=
  { recs := [], heap := [], hand := none, wpc := .top, stopped := false,
    stopRet := false, wake := false, awoken := false, clock := 0, tick := 0,
    extAfterStop := 0 }

/-- Record updates used by the transition function. -/
def setCancel (r : Rec) : Rec := { r with cancel := true }

def markPopped (r : Rec) (k : Nat) (d : Bool) : Rec :=
  { r with poppedAt := some k, discarded := d }

def markDiscarded (r : Rec) : Rec := { r with discarded := true }

def bumpFire (r : Rec) : Rec := { r with fireCount := r.fireCount + 1 }

def markEnded (r : Rec) : Rec := { r with ended := true }

/-- Transition labels: environment (advance), client calls, and the
worker's atomic blocks. -/
inductive Label
  | advance (d : Nat)
  | clientAdd (t : Int)
  | clientCancel (i : Nat)
  | clientStop
  | wTop
  | wWake
  | wCheck
  | wSleepTimer
  | wSleepWake
  | wLockExt
  | wLockInt
  | wFireBegin
  | wFireEnd
  | wUnlockExt
  | wUnlockInt
deriving DecidableEq, Repr

/-- Small-step transition function.  `none` means the label is not
enabled (for example the caller would block on d.mu). -/
def step (s : State) : Label → Option State
  | .advance d =>
      -- the monotonic clock moves forward by d nanoseconds
      some { s with clock := s.clock + d, tick := s.tick + 1 }
  | .clientAdd t =>
      -- AddTimeout (147-162): runs wholly under d.mu, so enabled only
      -- while the worker does not hold d.mu.  Pushes a fresh record,
      -- broadcasts if the heap was empty, sends a wake token.
      if muFree s.wpc then
        some { s with
          recs := s.recs ++ [⟨t, false, s.tick, none, 0, false, false⟩],
          heap := heapPush s.heap (s.recs.length, t),
          awoken := if s.heap = [] ∧ s.wpc = .waiting then true else s.awoken,
          wake := true,
          tick := s.tick + 1 }
      else none
  | .clientCancel i =>
      -- Timeout.Cancel (64-66): a single atomic store of 1 into the
      -- cancel flag, acquiring no mutex of the Daemon.
      match s.recs.get? i with
      | some r =>
          some { s with
            recs := s.recs.set i (setCancel r),
            tick := s.tick + 1 }
      | none => none
  | .clientStop =>
      -- Stop (121-141): under d.mu sets stopped, broadcasts if the heap
      -- is empty, sends a wake token, unlocks and returns.
      if muFree s.wpc then
        some { s with
          stopped := true,
          stopRet := true,
          awoken := if s.heap = [] ∧ s.wpc = .waiting then true else s.awoken,
          wake := true,
          tick := s.tick + 1 }
      else none
  | .wTop =>
      -- lines 166-179: lock d.mu; return if stopped; enter cond.Wait
      -- if the heap is empty; else continue to the inner loop at 181.
      if s.wpc = .top then
        if s.stopped then some { s with wpc := .done, tick := s.tick + 1 }
        else if s.heap = [] then
          some { s with wpc := .waiting, awoken := false, tick := s.tick + 1 }
        else some { s with wpc := .sleepCheck, tick := s.tick + 1 }
      else none
  | .wWake =>
      -- cond.Wait returns (only after a Broadcast, 174) with d.mu held;
      -- re-check stopped (175-178), else fall into the loop at 181.
      if s.wpc = .waiting ∧ s.awoken = true then
        if s.stopped then some { s with wpc := .done, tick := s.tick + 1 }
        else some { s with wpc := .sleepCheck, tick := s.tick + 1 }
      else none
  | .wCheck =>
      -- lines 188-211 under one continuous hold of d.mu: peek (188),
      -- read the clock (189), test now.After(to.t) (190).  On failure,
      -- unlock (193) and enter the select (sleeping).  On success, pop
      -- (205) and read the cancel flag (206): if set, drop the record
      -- and unlock (237); else unlock (211) and go take d.locker.
      if s.wpc = .sleepCheck then
        match s.heap with
        | [] => none
        | m :: _ =>
            if m.2 < s.clock then
              match s.recs.get? (heapPop s.heap).1.1 with
              | some r =>
                  if r.cancel then
                    some { s with
                      recs := s.recs.set (heapPop s.heap).1.1
                        (markPopped r s.tick true),
                      heap := (heapPop s.heap).2, wpc := .top,
                      tick := s.tick + 1 }
                  else
                    some { s with
                      recs := s.recs.set (heapPop s.heap).1.1
                        (markPopped r s.tick false),
                      heap := (heapPop s.heap).2, hand := some (heapPop s.heap).1,
                      wpc := .lockingExt, tick := s.tick + 1 }
              | none => none
            else some { s with wpc := .sleeping, tick := s.tick + 1 }
      else none
  | .wSleepTimer =>
      -- the timer arm of the select fires (195); relock d.mu (198) and
      -- re-check stopped (199-202).
      if s.wpc = .sleeping then
        if s.stopped then some { s with wpc := .done, tick := s.tick + 1 }
        else some { s with wpc := .sleepCheck, tick := s.tick + 1 }
      else none
  | .wSleepWake =>
      -- the wake arm of the select fires (196), consuming the buffered
      -- token; relock d.mu (198) and re-check stopped (199-202).
      if s.wpc = .sleeping ∧ s.wake = true then
        if s.stopped then
          some { s with wake := false, wpc := .done, tick := s.tick + 1 }
        else some { s with wake := false, wpc := .sleepCheck, tick := s.tick + 1 }
      else none
  | .wLockExt =>
      -- line 212: acquire d.locker (the external mutex).
      if s.wpc = .lockingExt then
        some { s with
          wpc := .lockingInt2,
          extAfterStop := if s.stopRet then s.extAfterStop + 1 else s.extAfterStop,
          tick := s.tick + 1 }
      else none
  | .wLockInt =>
      -- lines 213-230: reacquire d.mu; if stopped, unlock both and
      -- return (214-218); else re-read the cancel flag (230).
      if s.wpc = .lockingInt2 then
        if s.stopped then
          some { s with wpc := .done, hand := none, tick := s.tick + 1 }
        else
          match s.hand with
          | some x =>
              match s.recs.get? x.1 with
              | some r =>
                  if r.cancel then
                    some { s with
                      wpc := .skipFire,
                      recs := s.recs.set x.1 (markDiscarded r),
                      tick := s.tick + 1 }
                  else some { s with wpc := .preFire, tick := s.tick + 1 }
              | none => none
          | none => none
      else none
  | .wFireBegin =>
      -- line 233: the call of to.f() begins.
      if s.wpc = .preFire then
        match s.hand with
        | some x =>
            match s.recs.get? x.1 with
            | some r =>
                some { s with
                  wpc := .inCallback,
                  recs := s.recs.set x.1 (bumpFire r),
                  tick := s.tick + 1 }
            | none => none
        | none => none
      else none
  | .wFireEnd =>
      -- line 233: the call of to.f() returns.
      if s.wpc = .inCallback then
        match s.hand with
        | some x =>
            match s.recs.get? x.1 with
            | some r =>
                some { s with
                  wpc := .fired,
                  recs := s.recs.set x.1 (markEnded r),
                  tick := s.tick + 1 }
            | none => none
        | none => none
      else none
  | .wUnlockExt =>
      -- line 235: d.locker.Unlock() — reached both after a fire and
      -- after the skipped fire of the 230 re-check.
      if s.wpc = .fired ∨ s.wpc = .skipFire then
        some { s with wpc := .relExt, tick := s.tick + 1 }
      else none
  | .wUnlockInt =>
      -- line 237: d.mu.Unlock(); the hand reference is dropped and the
      -- outer loop restarts at 166.
      if s.wpc = .relExt then
        some { s with wpc := .top, hand := none, tick := s.tick + 1 }
      else none

/-- Execution of a list of labels from a state. -/
def run : State → List Label → Option State
  | s, [] => some s
  | s, l :: ls =>
      match step s l with
      | some s2 => run s2 ls
      | none => none

/-- Reachability from the initial daemon state. -/
def Reachable (s : State) : Prop := ∃ ls, run init ls = some s

theorem run_preserves (P : State → Prop)
    (hstep : ∀ s l s2, P s → step s l = some s2 → P s2) :
    ∀ ls s0 s, P s0 → run s0 ls = some s → P s := by
  intro ls
  induction ls with
  | nil =>
    intro s0 s h0 hr
    cases hr
    exact h0
  | cons l ls ih =>
    intro s0 s h0 hr
    unfold run at hr
    cases hs : step s0 l with
    | none => rw [hs] at hr; cases hr
    | some s1 =>
        rw [hs] at hr
        exact ih s1 s (hstep s0 l s1 h0 hs) hr

theorem reachable_inv (P : State → Prop) (hinit : P init)
    (hstep : ∀ s l s2, P s → step s l = some s2 → P s2) :
    ∀ s, Reachable s → P s := by
  intro s ⟨ls, hr⟩
  exact run_preserves P hstep ls init s hinit hr

/- Supporting lemmas about list lookups and id multiplicities. -/

theorem getq_lt {α : Type} (l : List α) (i : Nat) (r : α) (h : l.get? i = some r) :
    i < l.length := by
  induction l generalizing i with
  | nil => cases h
  | cons a tl ih =>
    cases i with
    | zero => simp
    | succ k =>
      simp only [List.get?] at h
      have := ih k h
      simp; omega

theorem getq_set_self {α : Type} (l : List α) (i : Nat) (v : α) (h : i < l.length) :
    (l.set i v).get? i = some v := by
  induction l generalizing i with
  | nil => simp at h
  | cons a tl ih =>
    cases i with
    | zero => rfl
    | succ k => exact ih k (by simpa using h)

theorem getq_set_ne {α : Type} (l : List α) (i j : Nat) (v : α) (h : i ≠ j) :
    (l.set i v).get? j = l.get? j := by
  induction l generalizing i j with
  | nil => simp [List.set]
  | cons a tl ih =>
    cases i with
    | zero =>
      cases j with
      | zero => exact absurd rfl h
      | succ k => rfl
    | succ m =>
      cases j with
      | zero => rfl
      | succ k => exact ih m k (by omega)

theorem getq_append_lt {α : Type} (l l2 : List α) (i : Nat) (h : i < l.length) :
    (l ++ l2).get? i = l.get? i :=
  List.get?_append h

theorem getq_append_len {α : Type} (l : List α) (x : α) :
    (l ++ [x]).get? l.length = some x :=
  List.get?_concat_length l x

theorem idCount_push (l : List Entry) (x : Entry) (i : Nat) :
    idCount (heapPush l x) i = idCount l i + (if x.1 = i then 1 else 0) := by
  unfold idCount
  have hp := (heapPush_perm l x).map Prod.fst
  rw [hp.count_eq i]
  simp [List.count_cons]

theorem idCount_pop (l : List Entry) (h : l ≠ []) (i : Nat) :
    idCount l i = idCount (heapPop l).2 i + (if (heapPop l).1.1 = i then 1 else 0) := by
  unfold idCount
  have hp := (heapPop_perm l h).map Prod.fst
  rw [← hp.count_eq i]
  simp [List.count_append, List.count_cons]

theorem idCount_zero_iff (l : List Entry) (i : Nat) :
    idCount l i = 0 ↔ ∀ p ∈ l, p.1 ≠ i := by
  unfold idCount
  rw [List.count_eq_zero]
  constructor
  · intro hnm p hp hq
    exact hnm (hq ▸ List.mem_map_of_mem Prod.fst hp)
  · intro hall hmem
    obtain ⟨p, hp, hq⟩ := List.mem_map.mp hmem
    exact hall p hp hq

theorem idCount_pos_of_mem (l : List Entry) (p : Entry) (hp : p ∈ l) :
    1 ≤ idCount l p.1 := by
  unfold idCount
  have : p.1 ∈ l.map Prod.fst := List.mem_map_of_mem Prod.fst hp
  have := List.count_pos_iff.mpr this
  omega

theorem head_min_of_heapInv (m : Entry) (rest : List Entry)
    (h : heapInv (m :: rest)) (q : Entry) (hq : q ∈ m :: rest) : m.2 ≤ q.2 := by
  have := head_le_of_heapInv (m :: rest) h q hq
  simpa using this

/- The per-phase record facts carried while the worker holds a popped
record in its hand. -/

def phasePred : WPC → Rec → Prop
  | .lockingExt => fun r => r.fireCount = 0 ∧ r.ended = false ∧ r.discarded = false
  | .lockingInt2 => fun r => r.fireCount = 0 ∧ r.ended = false ∧ r.discarded = false
  | .preFire => fun r => r.fireCount = 0 ∧ r.ended = false ∧ r.discarded = false
  | .skipFire => fun r => r.discarded = true
  | .inCallback => fun r => 1 ≤ r.fireCount
  | .fired => fun r => r.ended = true
  | .relExt => fun r => r.ended = true ∨ r.discarded = true
  | _ => fun _ => True

/-- Global inductive invariant of the transition system. -/
structure Inv (s : State) : Prop where
  hclean : ∀ p ∈ s.heap, ∃ r, s.recs.get? p.1 = some r ∧ r.t = p.2 ∧
    r.fireCount = 0 ∧ r.ended = false ∧ r.discarded = false
  handrec : ∀ x, s.hand = some x → ∃ r, s.recs.get? x.1 = some r ∧ r.t = x.2
  handNone : handStates s.wpc = false → s.hand = none
  handSome : handStates s.wpc = true → ∃ x, s.hand = some x
  stopMu : s.stopped = true → muFree s.wpc = true
  stopRetStopped : s.stopRet = true → s.stopped = true
  extLe : s.extAfterStop ≤ 1
  extOne : 1 ≤ s.extAfterStop →
    s.stopRet = true ∧ (s.wpc = .lockingInt2 ∨ s.wpc = .done)
  handClock : ∀ x, s.hand = some x → x.2 < s.clock
  heapOk : heapInv s.heap
  neNonempty : (s.wpc = .sleepCheck ∨ s.wpc = .sleeping) → s.heap ≠ []
  waitNonempty : s.wpc = .waiting → s.awoken = true →
    s.stopped = true ∨ s.heap ≠ []
  occLe : ∀ i, occ s i ≤ 1
  fates : s.stopped = false → ∀ i r, s.recs.get? i = some r →
    1 ≤ occ s i ∨ r.discarded = true ∨ r.ended = true
  fireLe : ∀ i r, s.recs.get? i = some r → r.fireCount ≤ 1
  discCancel : ∀ i r, s.recs.get? i = some r → r.discarded = true →
    r.cancel = true
  phase : ∀ x, s.hand = some x → ∀ r, s.recs.get? x.1 = some r →
    phasePred s.wpc r
  ticksAdded : ∀ i r, s.recs.get? i = some r → r.addedAt < s.tick
  ticksPopped : ∀ i r, s.recs.get? i = some r → ∀ p, r.poppedAt = some p →
    p < s.tick
  handOrder : ∀ x, s.hand = some x → ∀ r2, s.recs.get? x.1 = some r2 →
    ∃ p, r2.poppedAt = some p ∧ ∀ i1 r1, s.recs.get? i1 = some r1 →
      r1.addedAt ≤ p → r1.t < x.2 → r1.cancel = false → r1.ended = true
  firedOrder : ∀ i2 r2, s.recs.get? i2 = some r2 → 1 ≤ r2.fireCount →
    ∃ p, r2.poppedAt = some p ∧ ∀ i1 r1, s.recs.get? i1 = some r1 →
      r1.addedAt ≤ p → r1.t < r2.t → r1.cancel = false → r1.ended = true

theorem inv_init : Inv init := by
  constructor <;> simp [init, occ, idCount, heapInv, handStates, muFree, keyAt]

theorem stopped_false_of_wpc (s : State) (h : Inv s) (hm : muFree s.wpc = false) :
    s.stopped = false := by
  cases hst : s.stopped
  · rfl
  · exfalso
    have h2 := h.stopMu hst
    rw [hm] at h2
    exact Bool.noConfusion h2

theorem ext_zero_of_wpc (s : State) (h : Inv s)
    (hw : s.wpc ≠ .lockingInt2) (hw2 : s.wpc ≠ .done) : s.extAfterStop = 0 := by
  rcases Nat.eq_zero_or_pos s.extAfterStop with h0 | h0
  · exact h0
  · rcases (h.extOne h0).2 with h1 | h1
    · exact absurd h1 hw
    · exact absurd h1 hw2

/-- Transport of the invariant along a step that only moves the worker
program counter (and possibly the wake and awoken bits). -/
theorem inv_retarget (s : State) (w2 : WPC) (wk2 a2 : Bool) (h : Inv s)
    (hhn : handStates w2 = false → s.hand = none)
    (hhs : handStates w2 = true → ∃ x, s.hand = some x)
    (hsm : s.stopped = true → muFree w2 = true)
    (hext : 1 ≤ s.extAfterStop → w2 = .lockingInt2 ∨ w2 = .done)
    (hne : (w2 = .sleepCheck ∨ w2 = .sleeping) → s.heap ≠ [])
    (hwn : w2 = .waiting → a2 = true → s.stopped = true ∨ s.heap ≠ [])
    (hph : ∀ x, s.hand = some x → ∀ r, s.recs.get? x.1 = some r → phasePred w2 r) :
    Inv { s with wpc := w2, wake := wk2, awoken := a2, tick := s.tick + 1 } := by
  refine
      { hclean := h.hclean,
        handrec := h.handrec,
        handNone := hhn,
        handSome := hhs,
        stopMu := hsm,
        stopRetStopped := h.stopRetStopped,
        extLe := h.extLe,
        extOne := ?_,
        handClock := h.handClock,
        heapOk := h.heapOk,
        neNonempty := hne,
        waitNonempty := hwn,
        occLe := h.occLe,
        fates := h.fates,
        fireLe := h.fireLe,
        discCancel := h.discCancel,
        phase := hph,
        ticksAdded := ?_,
        ticksPopped := ?_,
        handOrder := h.handOrder,
        firedOrder := h.firedOrder }
  · intro hx
    exact ⟨(h.extOne hx).1, hext hx⟩
  · intro i r hr
    have := h.ticksAdded i r hr
    simp only []
    omega
  · intro i r hr p hp
    have := h.ticksPopped i r hr p hp
    simp only []
    omega

theorem inv_advance (s s2 : State) (d : Nat) (h : Inv s)
    (hs : step s (.advance d) = some s2) : Inv s2 := by
  simp only [step] at hs
  cases hs
  refine
      { hclean := h.hclean,
        handrec := h.handrec,
        handNone := h.handNone,
        handSome := h.handSome,
        stopMu := h.stopMu,
        stopRetStopped := h.stopRetStopped,
        extLe := h.extLe,
        extOne := h.extOne,
        handClock := ?_,
        heapOk := h.heapOk,
        neNonempty := h.neNonempty,
        waitNonempty := h.waitNonempty,
        occLe := h.occLe,
        fates := h.fates,
        fireLe := h.fireLe,
        discCancel := h.discCancel,
        phase := h.phase,
        ticksAdded := ?_,
        ticksPopped := ?_,
        handOrder := h.handOrder,
        firedOrder := h.firedOrder }
  · intro x hx
    have := h.handClock x hx
    have hd : (0 : Int) ≤ (d : Int) := Int.ofNat_nonneg d
    simp only []
    omega
  · intro i r hr
    have := h.ticksAdded i r hr
    simp only []
    omega
  · intro i r hr p hp
    have := h.ticksPopped i r hr p hp
    simp only []
    omega

theorem inv_clientStop (s s2 : State) (h : Inv s)
    (hs : step s .clientStop = some s2) : Inv s2 := by
  simp only [step] at hs
  split at hs
  · rename_i hmf
    cases hs
    refine
        { hclean := h.hclean,
          handrec := h.handrec,
          handNone := h.handNone,
          handSome := h.handSome,
          stopMu := ?_,
          stopRetStopped := ?_,
          extLe := h.extLe,
          extOne := ?_,
          handClock := h.handClock,
          heapOk := h.heapOk,
          neNonempty := h.neNonempty,
          waitNonempty := ?_,
          fates := ?_,
          occLe := h.occLe,
          fireLe := h.fireLe,
          discCancel := h.discCancel,
          phase := h.phase,
          ticksAdded := ?_,
          ticksPopped := ?_,
          handOrder := h.handOrder,
          firedOrder := h.firedOrder }
    · intro _
      exact hmf
    · intro _
      rfl
    · intro hx
      exact ⟨rfl, (h.extOne hx).2⟩
    · intro _ _
      exact Or.inl rfl
    · intro hst
      exact absurd hst (by simp)
    · intro i r hr
      have := h.ticksAdded i r hr
      simp only []
      omega
    · intro i r hr p hp
      have := h.ticksPopped i r hr p hp
      simp only []
      omega
  · cases hs

theorem inv_wTop (s s2 : State) (h : Inv s) (hs : step s .wTop = some s2) :
    Inv s2 := by
  simp only [step] at hs
  split at hs
  · rename_i hw
    split at hs
    · rename_i hstop
      cases hs
      exact inv_retarget s .done s.wake s.awoken h
        (fun _ => h.handNone (by rw [hw]; rfl))
        (fun hcontra => by simp [handStates] at hcontra)
        (fun _ => rfl)
        (fun hx => Or.inr rfl)
        (fun hor => by rcases hor with h1 | h1 <;> simp at h1)
        (fun hcontra => by simp at hcontra)
        (fun x hx r hr => trivial)
    · rename_i hstop
      split at hs
      · rename_i hheap
        cases hs
        exact inv_retarget s .waiting s.wake false h
          (fun _ => h.handNone (by rw [hw]; rfl))
          (fun hcontra => by simp [handStates] at hcontra)
          (fun hst => absurd hst hstop)
          (fun hx => absurd (ext_zero_of_wpc s h (by rw [hw]; simp) (by rw [hw]; simp))
            (by omega))
          (fun hor => by rcases hor with h1 | h1 <;> simp at h1)
          (fun _ hcontra => Bool.noConfusion hcontra)
          (fun x hx r hr => trivial)
      · rename_i hheap
        cases hs
        exact inv_retarget s .sleepCheck s.wake s.awoken h
          (fun _ => h.handNone (by rw [hw]; rfl))
          (fun hcontra => by simp [handStates] at hcontra)
          (fun hst => absurd hst hstop)
          (fun hx => absurd (ext_zero_of_wpc s h (by rw [hw]; simp) (by rw [hw]; simp))
            (by omega))
          (fun _ => hheap)
          (fun hcontra => by simp at hcontra)
          (fun x hx r hr => trivial)
  · cases hs

theorem inv_wWake (s s2 : State) (h : Inv s) (hs : step s .wWake = some s2) :
    Inv s2 := by
  simp only [step] at hs
  split at hs
  · rename_i hw
    split at hs
    · rename_i hstop
      cases hs
      exact inv_retarget s .done s.wake s.awoken h
        (fun _ => h.handNone (by rw [hw.1]; rfl))
        (fun hcontra => by simp [handStates] at hcontra)
        (fun _ => rfl)
        (fun hx => Or.inr rfl)
        (fun hor => by rcases hor with h1 | h1 <;> simp at h1)
        (fun hcontra => by simp at hcontra)
        (fun x hx r hr => trivial)
    · rename_i hstop
      cases hs
      refine inv_retarget s .sleepCheck s.wake s.awoken h
        (fun _ => h.handNone (by rw [hw.1]; rfl))
        (fun hcontra => by simp [handStates] at hcontra)
        (fun hst => absurd hst hstop)
        (fun hx => absurd (ext_zero_of_wpc s h (by rw [hw.1]; simp) (by rw [hw.1]; simp))
          (by omega))
        (fun _ => ?_)
        (fun hcontra => by simp at hcontra)
        (fun x hx r hr => trivial)
      rcases h.waitNonempty hw.1 hw.2 with h1 | h1
      · exact absurd h1 hstop
      · exact h1
  · cases hs

theorem inv_wSleepTimer (s s2 : State) (h : Inv s)
    (hs : step s .wSleepTimer = some s2) : Inv s2 := by
  simp only [step] at hs
  split at hs
  · rename_i hw
    split at hs
    · rename_i hstop
      cases hs
      exact inv_retarget s .done s.wake s.awoken h
        (fun _ => h.handNone (by rw [hw]; rfl))
        (fun hcontra => by simp [handStates] at hcontra)
        (fun _ => rfl)
        (fun hx => Or.inr rfl)
        (fun hor => by rcases hor with h1 | h1 <;> simp at h1)
        (fun hcontra => by simp at hcontra)
        (fun x hx r hr => trivial)
    · rename_i hstop
      cases hs
      exact inv_retarget s .sleepCheck s.wake s.awoken h
        (fun _ => h.handNone (by rw [hw]; rfl))
        (fun hcontra => by simp [handStates] at hcontra)
        (fun hst => absurd hst hstop)
        (fun hx => absurd (ext_zero_of_wpc s h (by rw [hw]; simp) (by rw [hw]; simp))
          (by omega))
        (fun _ => h.neNonempty (Or.inr hw))
        (fun hcontra => by simp at hcontra)
        (fun x hx r hr => trivial)
  · cases hs

theorem inv_wSleepWake (s s2 : State) (h : Inv s)
    (hs : step s .wSleepWake = some s2) : Inv s2 := by
  simp only [step] at hs
  split at hs
  · rename_i hw
    split at hs
    · rename_i hstop
      cases hs
      exact inv_retarget s .done false s.awoken h
        (fun _ => h.handNone (by rw [hw.1]; rfl))
        (fun hcontra => by simp [handStates] at hcontra)
        (fun _ => rfl)
        (fun hx => Or.inr rfl)
        (fun hor => by rcases hor with h1 | h1 <;> simp at h1)
        (fun hcontra => by simp at hcontra)
        (fun x hx r hr => trivial)
    · rename_i hstop
      cases hs
      exact inv_retarget s .sleepCheck false s.awoken h
        (fun _ => h.handNone (by rw [hw.1]; rfl))
        (fun hcontra => by simp [handStates] at hcontra)
        (fun hst => absurd hst hstop)
        (fun hx => absurd (ext_zero_of_wpc s h (by rw [hw.1]; simp) (by rw [hw.1]; simp))
          (by omega))
        (fun _ => h.neNonempty (Or.inr hw.1))
        (fun hcontra => by simp at hcontra)
        (fun x hx r hr => trivial)
  · cases hs

theorem inv_wUnlockExt (s s2 : State) (h : Inv s)
    (hs : step s .wUnlockExt = some s2) : Inv s2 := by
  simp only [step] at hs
  split at hs
  · rename_i hw
    cases hs
    have hstop : s.stopped = false := by
      apply stopped_false_of_wpc s h
      rcases hw with h1 | h1 <;> rw [h1] <;> rfl
    refine inv_retarget s .relExt s.wake s.awoken h
      (fun hcontra => by simp [handStates] at hcontra)
      (fun _ => h.handSome (by rcases hw with h1 | h1 <;> rw [h1] <;> rfl))
      (fun hst => by rw [hst] at hstop; exact Bool.noConfusion hstop)
      (fun hx => absurd (ext_zero_of_wpc s h ?_ ?_) (by omega))
      (fun hor => by rcases hor with h1 | h1 <;> simp at h1)
      (fun hcontra => by simp at hcontra)
      (fun x hx r hr => ?_)
    · rcases hw with h1 | h1 <;> rw [h1] <;> simp
    · rcases hw with h1 | h1 <;> rw [h1] <;> simp
    · have := h.phase x hx r hr
      rcases hw with h1 | h1
      · rw [h1] at this
        exact Or.inl this
      · rw [h1] at this
        exact Or.inr this
  · cases hs

theorem occ_hand_none (s : State) (hh : s.hand = none) (i : Nat) :
    occ s i = idCount s.heap i := by
  unfold occ
  rw [hh]
  rfl

theorem occ_hand_some (s : State) (x : Entry) (hh : s.hand = some x) (i : Nat) :
    occ s i = idCount s.heap i + (if x.1 = i then 1 else 0) := by
  unfold occ
  rw [hh]

theorem hand_id_not_in_heap (s : State) (h : Inv s) (x : Entry)
    (hx : s.hand = some x) : ∀ p ∈ s.heap, p.1 ≠ x.1 := by
  have hocc := h.occLe x.1
  rw [occ_hand_some s x hx x.1] at hocc
  simp at hocc
  have h0 : idCount s.heap x.1 = 0 := by omega
  exact (idCount_zero_iff s.heap x.1).mp h0

theorem phasePred_setCancel (w : WPC) (r : Rec) :
    phasePred w (setCancel r) ↔ phasePred w r := by
  cases w <;> exact Iff.rfl

theorem inv_wLockExt (s s2 : State) (h : Inv s)
    (hs : step s .wLockExt = some s2) : Inv s2 := by
  simp only [step] at hs
  split at hs
  · rename_i hw
    cases hs
    have hext0 : s.extAfterStop = 0 :=
      ext_zero_of_wpc s h (by rw [hw]; simp) (by rw [hw]; simp)
    refine
      { hclean := h.hclean,
        handrec := h.handrec,
        handNone := fun hcontra => by simp [handStates] at hcontra,
        handSome := fun _ => h.handSome (by rw [hw]; rfl),
        stopMu := fun _ => rfl,
        stopRetStopped := h.stopRetStopped,
        extLe := ?_,
        extOne := ?_,
        handClock := h.handClock,
        heapOk := h.heapOk,
        neNonempty := fun hor => by rcases hor with h1 | h1 <;> simp at h1,
        waitNonempty := fun hcontra => by simp at hcontra,
        occLe := h.occLe,
        fates := h.fates,
        fireLe := h.fireLe,
        discCancel := h.discCancel,
        phase := ?_,
        ticksAdded := ?_,
        ticksPopped := ?_,
        handOrder := h.handOrder,
        firedOrder := h.firedOrder }
    · simp only []
      rw [hext0]
      split <;> omega
    · intro hx
      simp only [] at hx
      constructor
      · by_cases hsr : s.stopRet = true
        · exact hsr
        · rw [if_neg hsr, hext0] at hx
          omega
      · exact Or.inl rfl
    · intro x hx r hr
      have := h.phase x hx r hr
      rw [hw] at this
      exact this
    · intro i r hr
      have := h.ticksAdded i r hr
      simp only []
      omega
    · intro i r hr p hp
      have := h.ticksPopped i r hr p hp
      simp only []
      omega
  · cases hs

theorem inv_wUnlockInt (s s2 : State) (h : Inv s)
    (hs : step s .wUnlockInt = some s2) : Inv s2 := by
  simp only [step] at hs
  split at hs
  · rename_i hw
    cases hs
    obtain ⟨x, hx⟩ := h.handSome (by rw [hw]; rfl)
    have hstop : s.stopped = false := stopped_false_of_wpc s h (by rw [hw]; rfl)
    refine
      { hclean := h.hclean,
        handrec := fun y hy => Option.noConfusion hy,
        handNone := fun _ => rfl,
        handSome := fun hcontra => by simp [handStates] at hcontra,
        stopMu := fun _ => rfl,
        stopRetStopped := h.stopRetStopped,
        extLe := h.extLe,
        extOne := ?_,
        handClock := fun y hy => Option.noConfusion hy,
        heapOk := h.heapOk,
        neNonempty := fun hor => by rcases hor with h1 | h1 <;> simp at h1,
        waitNonempty := fun hcontra => by simp at hcontra,
        occLe := ?_,
        fates := ?_,
        fireLe := h.fireLe,
        discCancel := h.discCancel,
        phase := fun y hy => Option.noConfusion hy,
        ticksAdded := ?_,
        ticksPopped := ?_,
        handOrder := fun y hy => Option.noConfusion hy,
        firedOrder := h.firedOrder }
    · intro hx2
      have hx3 : 1 ≤ s.extAfterStop := hx2
      have h0 := ext_zero_of_wpc s h (by rw [hw]; simp) (by rw [hw]; simp)
      exact absurd hx3 (by rw [h0]; omega)
    · intro i
      have hocc := h.occLe i
      rw [occ_hand_some s x hx i] at hocc
      have h2 : occ { s with wpc := WPC.top, hand := none, tick := s.tick + 1 } i
          = idCount s.heap i := occ_hand_none _ rfl i
      rw [h2]
      omega
    · intro hst i r hr
      have h2 : occ { s with wpc := WPC.top, hand := none, tick := s.tick + 1 } i
          = idCount s.heap i := occ_hand_none _ rfl i
      by_cases hix : x.1 = i
      · have hph := h.phase x hx
        subst hix
        have := hph r hr
        rw [hw] at this
        rcases this with h1 | h1
        · exact Or.inr (Or.inr h1)
        · exact Or.inr (Or.inl h1)
      · rcases h.fates hstop i r hr with h1 | h1
        · rw [occ_hand_some s x hx i, if_neg hix] at h1
          rw [h2]
          omega
        · exact Or.inr h1
    · intro i r hr
      have := h.ticksAdded i r hr
      simp only []
      omega
    · intro i r hr p hp
      have := h.ticksPopped i r hr p hp
      simp only []
      omega
  · cases hs

theorem inv_wLockInt (s s2 : State) (h : Inv s)
    (hs : step s .wLockInt = some s2) : Inv s2 := by
  simp only [step] at hs
  split at hs
  · rename_i hw
    split at hs
    · rename_i hstopped
      cases hs
      obtain ⟨x, hx⟩ := h.handSome (by rw [hw]; rfl)
      refine
        { hclean := h.hclean,
          handrec := fun y hy => Option.noConfusion hy,
          handNone := fun _ => rfl,
          handSome := fun hcontra => by simp [handStates] at hcontra,
          stopMu := fun _ => rfl,
          stopRetStopped := h.stopRetStopped,
          extLe := h.extLe,
          extOne := fun hx2 => ⟨(h.extOne hx2).1, Or.inr rfl⟩,
          handClock := fun y hy => Option.noConfusion hy,
          heapOk := h.heapOk,
          neNonempty := fun hor => by rcases hor with h1 | h1 <;> simp at h1,
          waitNonempty := fun hcontra => by simp at hcontra,
          occLe := ?_,
          fates := ?_,
          fireLe := h.fireLe,
          discCancel := h.discCancel,
          phase := fun y hy => Option.noConfusion hy,
          ticksAdded := ?_,
          ticksPopped := ?_,
          handOrder := fun y hy => Option.noConfusion hy,
          firedOrder := h.firedOrder }
      · intro i
        have hocc := h.occLe i
        rw [occ_hand_some s x hx i] at hocc
        have h2 : occ { s with wpc := WPC.done, hand := none, tick := s.tick + 1 } i
            = idCount s.heap i := occ_hand_none _ rfl i
        rw [h2]
        omega
      · intro hst
        exfalso
        have h2 : s.stopped = false := hst
        rw [h2] at hstopped
        exact Bool.noConfusion hstopped
      · intro i r hr
        have := h.ticksAdded i r hr
        simp only []
        omega
      · intro i r hr p hp
        have := h.ticksPopped i r hr p hp
        simp only []
        omega
    · rename_i hstopped
      have hstop : s.stopped = false := by
        cases hb : s.stopped
        · rfl
        · exact absurd hb hstopped
      split at hs
      · rename_i x hhx
        split at hs
        · rename_i r hget
          have hxlen : x.1 < s.recs.length := getq_lt _ _ _ hget
          have hph := h.phase x hhx r hget
          rw [hw] at hph
          have hnotin : ∀ p ∈ s.heap, p.1 ≠ x.1 := hand_id_not_in_heap s h x hhx
          split at hs
          · rename_i hcanc
            cases hs
            refine
              { hclean := ?_,
                handrec := ?_,
                handNone := fun hcontra => by simp [handStates] at hcontra,
                handSome := fun _ => ⟨x, hhx⟩,
                stopMu := ?_,
                stopRetStopped := h.stopRetStopped,
                extLe := h.extLe,
                extOne := ?_,
                handClock := fun y hy => h.handClock y hy,
                heapOk := h.heapOk,
                neNonempty := fun hor => by rcases hor with h1 | h1 <;> simp at h1,
                waitNonempty := fun hcontra => by simp at hcontra,
                occLe := ?_,
                fates := ?_,
                fireLe := ?_,
                discCancel := ?_,
                phase := ?_,
                ticksAdded := ?_,
                ticksPopped := ?_,
                handOrder := ?_,
                firedOrder := ?_ }
            · intro p hp
              obtain ⟨r0, hr0, hprops⟩ := h.hclean p hp
              refine ⟨r0, ?_, hprops⟩
              rw [getq_set_ne _ x.1 p.1 _ (fun he => hnotin p hp he.symm)]
              exact hr0
            · intro y hy
              have hyx : x = y := Option.some.inj (hhx.symm.trans hy)
              subst hyx
              obtain ⟨r0, hr0, ht0⟩ := h.handrec x hhx
              have hr0r : r0 = r := Option.some.inj (hr0.symm.trans hget)
              subst hr0r
              exact ⟨markDiscarded r0, by rw [getq_set_self _ _ _ hxlen],
                by simpa [markDiscarded] using ht0⟩
            · intro hst
              exfalso
              have h2 : s.stopped = true := hst
              rw [h2] at hstop
              exact Bool.noConfusion hstop
            · intro hx2
              have h1 := (h.extOne hx2).1
              have h2 := h.stopRetStopped h1
              rw [h2] at hstop
              exact absurd hstop (by simp)
            · intro i
              have hocc := h.occLe i
              have heq : occ { s with
                    wpc := WPC.skipFire,
                    recs := s.recs.set x.1 (markDiscarded r),
                    tick := s.tick + 1 } i
                  = occ s i := by
                unfold occ
                rfl
              rw [heq]
              exact hocc
            · intro hst i r1 hr1
              have heq : occ { s with
                    wpc := WPC.skipFire,
                    recs := s.recs.set x.1 (markDiscarded r),
                    tick := s.tick + 1 } i
                  = occ s i := by
                unfold occ
                rfl
              by_cases hix : i = x.1
              · subst hix
                rw [getq_set_self _ _ _ hxlen] at hr1
                have hr1e : r1 = markDiscarded r := (Option.some.inj hr1).symm
                subst hr1e
                exact Or.inr (Or.inl rfl)
              · rw [getq_set_ne _ x.1 i _ (fun he => hix he.symm)] at hr1
                rcases h.fates hstop i r1 hr1 with h1 | h1
                · rw [heq]
                  exact Or.inl h1
                · exact Or.inr h1
            · intro i r1 hr1
              by_cases hix : i = x.1
              · subst hix
                rw [getq_set_self _ _ _ hxlen] at hr1
                have hr1e : r1 = markDiscarded r := (Option.some.inj hr1).symm
                subst hr1e
                have := h.fireLe x.1 r hget
                simpa [markDiscarded] using this
              · rw [getq_set_ne _ x.1 i _ (fun he => hix he.symm)] at hr1
                exact h.fireLe i r1 hr1
            · intro i r1 hr1 hd
              by_cases hix : i = x.1
              · subst hix
                rw [getq_set_self _ _ _ hxlen] at hr1
                have hr1e : r1 = markDiscarded r := (Option.some.inj hr1).symm
                subst hr1e
                simpa [markDiscarded] using hcanc
              · rw [getq_set_ne _ x.1 i _ (fun he => hix he.symm)] at hr1
                exact h.discCancel i r1 hr1 hd
            · intro y hy r1 hr1
              have hyx : x = y := Option.some.inj (hhx.symm.trans hy)
              subst hyx
              rw [getq_set_self _ _ _ hxlen] at hr1
              have hr1e : r1 = markDiscarded r := (Option.some.inj hr1).symm
              subst hr1e
              simp [phasePred, markDiscarded]
            · intro i r1 hr1
              by_cases hix : i = x.1
              · subst hix
                rw [getq_set_self _ _ _ hxlen] at hr1
                have hr1e : r1 = markDiscarded r := (Option.some.inj hr1).symm
                subst hr1e
                have := h.ticksAdded x.1 r hget
                simp only [markDiscarded]
                omega
              · rw [getq_set_ne _ x.1 i _ (fun he => hix he.symm)] at hr1
                have := h.ticksAdded i r1 hr1
                simp only []
                omega
            · intro i r1 hr1 p hp
              by_cases hix : i = x.1
              · subst hix
                rw [getq_set_self _ _ _ hxlen] at hr1
                have hr1e : r1 = markDiscarded r := (Option.some.inj hr1).symm
                subst hr1e
                have := h.ticksPopped x.1 r hget p (by simpa [markDiscarded] using hp)
                simp only []
                omega
              · rw [getq_set_ne _ x.1 i _ (fun he => hix he.symm)] at hr1
                have := h.ticksPopped i r1 hr1 p hp
                simp only []
                omega
            · intro y hy r2 hr2
              have hyx : x = y := Option.some.inj (hhx.symm.trans hy)
              subst hyx
              rw [getq_set_self _ _ _ hxlen] at hr2
              have hr2e : r2 = markDiscarded r := (Option.some.inj hr2).symm
              subst hr2e
              obtain ⟨p, hp, hprop⟩ := h.handOrder x hhx r hget
              refine ⟨p, by simpa [markDiscarded] using hp, ?_⟩
              intro i1 r1 hr1 ha ht hc
              by_cases hix : i1 = x.1
              · subst hix
                rw [getq_set_self _ _ _ hxlen] at hr1
                have hr1e : r1 = markDiscarded r := (Option.some.inj hr1).symm
                subst hr1e
                exfalso
                have h3 : (markDiscarded r).cancel = true := by
                  simpa [markDiscarded] using hcanc
                rw [hc] at h3
                exact Bool.noConfusion h3
              · rw [getq_set_ne _ x.1 i1 _ (fun he => hix he.symm)] at hr1
                exact hprop i1 r1 hr1 ha ht hc
            · intro i2 r2 hr2 hfc
              by_cases hix : i2 = x.1
              · subst hix
                rw [getq_set_self _ _ _ hxlen] at hr2
                have hr2e : r2 = markDiscarded r := (Option.some.inj hr2).symm
                subst hr2e
                exfalso
                have hfc0 : r.fireCount = 0 := hph.1
                simp [markDiscarded, hfc0] at hfc
              · rw [getq_set_ne _ x.1 i2 _ (fun he => hix he.symm)] at hr2
                obtain ⟨p, hp, hprop⟩ := h.firedOrder i2 r2 hr2 hfc
                refine ⟨p, hp, ?_⟩
                intro i1 r1 hr1 ha ht hc
                by_cases hix1 : i1 = x.1
                · subst hix1
                  rw [getq_set_self _ _ _ hxlen] at hr1
                  have hr1e : r1 = markDiscarded r := (Option.some.inj hr1).symm
                  subst hr1e
                  exfalso
                  have h3 : (markDiscarded r).cancel = true := by
                    simpa [markDiscarded] using hcanc
                  rw [hc] at h3
                  exact Bool.noConfusion h3
                · rw [getq_set_ne _ x.1 i1 _ (fun he => hix1 he.symm)] at hr1
                  exact hprop i1 r1 hr1 ha ht hc
          · rename_i hcanc
            cases hs
            refine inv_retarget s .preFire s.wake s.awoken h
              (fun hcontra => by simp [handStates] at hcontra)
              (fun _ => ⟨x, hhx⟩)
              (fun hst => by rw [hst] at hstop; exact Bool.noConfusion hstop)
              (fun hx2 => ?_)
              (fun hor => by rcases hor with h1 | h1 <;> simp at h1)
              (fun hcontra => by simp at hcontra)
              (fun y hy r1 hr1 => ?_)
            · exfalso
              have h1 := (h.extOne hx2).1
              have h2 := h.stopRetStopped h1
              rw [h2] at hstop
              exact Bool.noConfusion hstop
            · have hyx : x = y := Option.some.inj (hhx.symm.trans hy)
              subst hyx
              have := h.phase x hhx r1 hr1
              rw [hw] at this
              exact this
        · cases hs
      · cases hs
  · cases hs

theorem inv_clientCancel (s s2 : State) (i : Nat) (h : Inv s)
    (hs : step s (.clientCancel i) = some s2) : Inv s2 := by
  simp only [step] at hs
  cases hget : s.recs.get? i with
  | none => rw [hget] at hs; cases hs
  | some r =>
    rw [hget] at hs
    cases hs
    have hlen : i < s.recs.length := getq_lt _ _ _ hget
    have hgets : ∀ j, j ≠ i → (s.recs.set i (setCancel r)).get? j = s.recs.get? j :=
      fun j hj => getq_set_ne _ i j _ (fun he => hj he.symm)
    have hgeti : (s.recs.set i (setCancel r)).get? i = some (setCancel r) :=
      getq_set_self _ _ _ hlen
    have hocc : ∀ j, occ { s with
          recs := s.recs.set i (setCancel r),
          tick := s.tick + 1 } j = occ s j := fun j => by
      unfold occ
      rfl
    refine
      { hclean := ?_,
        handrec := ?_,
        handNone := h.handNone,
        handSome := h.handSome,
        stopMu := h.stopMu,
        stopRetStopped := h.stopRetStopped,
        extLe := h.extLe,
        extOne := h.extOne,
        handClock := h.handClock,
        heapOk := h.heapOk,
        neNonempty := h.neNonempty,
        waitNonempty := h.waitNonempty,
        occLe := ?_,
        fates := ?_,
        fireLe := ?_,
        discCancel := ?_,
        phase := ?_,
        ticksAdded := ?_,
        ticksPopped := ?_,
        handOrder := ?_,
        firedOrder := ?_ }
    · intro p hp
      obtain ⟨r0, hr0, hp1, hp2, hp3, hp4⟩ := h.hclean p hp
      by_cases hpi : p.1 = i
      · rw [hpi] at hr0
        have hr0r : r0 = r := Option.some.inj (hr0.symm.trans hget)
        subst hr0r
        exact ⟨setCancel r0, by rw [hpi]; exact hgeti, hp1, hp2, hp3, hp4⟩
      · exact ⟨r0, by rw [hgets p.1 hpi]; exact hr0, hp1, hp2, hp3, hp4⟩
    · intro x hx
      obtain ⟨r0, hr0, ht0⟩ := h.handrec x hx
      by_cases hpi : x.1 = i
      · rw [hpi] at hr0
        have hr0r : r0 = r := Option.some.inj (hr0.symm.trans hget)
        subst hr0r
        exact ⟨setCancel r0, by rw [hpi]; exact hgeti, ht0⟩
      · exact ⟨r0, by rw [hgets x.1 hpi]; exact hr0, ht0⟩
    · intro j
      rw [hocc j]
      exact h.occLe j
    · intro hst j r1 hr1
      rw [hocc j]
      by_cases hji : j = i
      · subst hji
        rw [hgeti] at hr1
        have hr1e : r1 = setCancel r := (Option.some.inj hr1).symm
        subst hr1e
        rcases h.fates hst j r hget with h1 | h1
        · exact Or.inl h1
        · exact Or.inr (by simpa [setCancel] using h1)
      · rw [hgets j hji] at hr1
        exact h.fates hst j r1 hr1
    · intro j r1 hr1
      by_cases hji : j = i
      · subst hji
        rw [hgeti] at hr1
        have hr1e : r1 = setCancel r := (Option.some.inj hr1).symm
        subst hr1e
        simpa [setCancel] using h.fireLe j r hget
      · rw [hgets j hji] at hr1
        exact h.fireLe j r1 hr1
    · intro j r1 hr1 hd
      by_cases hji : j = i
      · subst hji
        rw [hgeti] at hr1
        have hr1e : r1 = setCancel r := (Option.some.inj hr1).symm
        subst hr1e
        simp [setCancel]
      · rw [hgets j hji] at hr1
        exact h.discCancel j r1 hr1 hd
    · intro x hx r1 hr1
      by_cases hpi : x.1 = i
      · rw [hpi, hgeti] at hr1
        have hr1e : r1 = setCancel r := (Option.some.inj hr1).symm
        subst hr1e
        apply (phasePred_setCancel s.wpc r).mpr
        apply h.phase x hx
        rw [hpi]
        exact hget
      · rw [hgets x.1 hpi] at hr1
        exact h.phase x hx r1 hr1
    · intro j r1 hr1
      by_cases hji : j = i
      · subst hji
        rw [hgeti] at hr1
        have hr1e : r1 = setCancel r := (Option.some.inj hr1).symm
        subst hr1e
        have := h.ticksAdded j r hget
        simp only [setCancel]
        omega
      · rw [hgets j hji] at hr1
        have := h.ticksAdded j r1 hr1
        simp only []
        omega
    · intro j r1 hr1 p hp
      by_cases hji : j = i
      · subst hji
        rw [hgeti] at hr1
        have hr1e : r1 = setCancel r := (Option.some.inj hr1).symm
        subst hr1e
        have := h.ticksPopped j r hget p (by simpa [setCancel] using hp)
        simp only []
        omega
      · rw [hgets j hji] at hr1
        have := h.ticksPopped j r1 hr1 p hp
        simp only []
        omega
    · intro x hx r2 hr2
      by_cases hpi : x.1 = i
      · rw [hpi, hgeti] at hr2
        have hr2e : r2 = setCancel r := (Option.some.inj hr2).symm
        subst hr2e
        obtain ⟨p, hp, hprop⟩ := h.handOrder x hx r (by rw [← hpi] at hget; exact hget)
        refine ⟨p, by simpa [setCancel] using hp, ?_⟩
        intro i1 r1 hr1 ha ht hc
        by_cases hji : i1 = i
        · subst hji
          rw [hgeti] at hr1
          have hr1e : r1 = setCancel r := (Option.some.inj hr1).symm
          subst hr1e
          exact absurd hc (by simp [setCancel])
        · rw [hgets i1 hji] at hr1
          exact hprop i1 r1 hr1 ha ht hc
      · obtain ⟨p, hp, hprop⟩ :=
          h.handOrder x hx r2 (by rw [← hgets x.1 hpi]; exact hr2)
        refine ⟨p, hp, ?_⟩
        intro i1 r1 hr1 ha ht hc
        by_cases hji : i1 = i
        · subst hji
          rw [hgeti] at hr1
          have hr1e : r1 = setCancel r := (Option.some.inj hr1).symm
          subst hr1e
          exact absurd hc (by simp [setCancel])
        · rw [hgets i1 hji] at hr1
          exact hprop i1 r1 hr1 ha ht hc
    · intro i2 r2 hr2 hfc
      by_cases hji : i2 = i
      · subst hji
        rw [hgeti] at hr2
        have hr2e : r2 = setCancel r := (Option.some.inj hr2).symm
        subst hr2e
        obtain ⟨p, hp, hprop⟩ :=
          h.firedOrder i2 r hget (by simpa [setCancel] using hfc)
        refine ⟨p, by simpa [setCancel] using hp, ?_⟩
        intro i1 r1 hr1 ha ht hc
        by_cases hji1 : i1 = i2
        · subst hji1
          rw [hgeti] at hr1
          have hr1e : r1 = setCancel r := (Option.some.inj hr1).symm
          subst hr1e
          exact absurd hc (by simp [setCancel])
        · rw [hgets i1 hji1] at hr1
          exact hprop i1 r1 hr1 ha (by simpa [setCancel] using ht) hc
      · rw [hgets i2 hji] at hr2
        obtain ⟨p, hp, hprop⟩ := h.firedOrder i2 r2 hr2 hfc
        refine ⟨p, hp, ?_⟩
        intro i1 r1 hr1 ha ht hc
        by_cases hji1 : i1 = i
        · subst hji1
          rw [hgeti] at hr1
          have hr1e : r1 = setCancel r := (Option.some.inj hr1).symm
          subst hr1e
          exact absurd hc (by simp [setCancel])
        · rw [hgets i1 hji1] at hr1
          exact hprop i1 r1 hr1 ha ht hc



theorem inv_clientAdd (s s2 : State) (t : Int) (h : Inv s)
    (hs : step s (.clientAdd t) = some s2) : Inv s2 := by
  simp only [step] at hs
  split at hs
  · rename_i hmf
    cases hs
    set n := s.recs.length with hn
    set newRec : Rec := ⟨t, false, s.tick, none, 0, false, false⟩ with hnew
    have hnewget : (s.recs ++ [newRec]).get? n = some newRec := getq_append_len _ _
    have holdget : ∀ j, j < n → (s.recs ++ [newRec]).get? j = s.recs.get? j :=
      fun j hj => getq_append_lt _ _ j hj
    have hlen2 : (s.recs ++ [newRec]).length = n + 1 := by simp
    have hidlt : ∀ p ∈ s.heap, p.1 < n := by
      intro p hp
      obtain ⟨r0, hr0, _⟩ := h.hclean p hp
      exact getq_lt _ _ _ hr0
    have hidc : ∀ j, idCount (heapPush s.heap (n, t)) j
        = idCount s.heap j + (if n = j then 1 else 0) := fun j => idCount_push _ _ j
    have hidn : idCount s.heap n = 0 := by
      apply (idCount_zero_iff _ _).mpr
      intro p hp
      have := hidlt p hp
      omega
    have hoccs : ∀ j, occ { s with
          recs := s.recs ++ [newRec],
          heap := heapPush s.heap (n, t),
          awoken := if s.heap = [] ∧ s.wpc = .waiting then true else s.awoken,
          wake := true,
          tick := s.tick + 1 } j
        = occ s j + (if n = j then 1 else 0) := by
      intro j
      cases hhand : s.hand with
      | none =>
        rw [occ_hand_none _ (by simp only [hhand]) j, occ_hand_none s hhand j]
        simp only []
        rw [hidc j]
      | some x =>
        rw [occ_hand_some _ x (by simp only [hhand]) j,
          occ_hand_some s x hhand j]
        simp only []
        rw [hidc j]
        omega
    refine
      { hclean := ?_,
        handrec := ?_,
        handNone := h.handNone,
        handSome := h.handSome,
        stopMu := h.stopMu,
        stopRetStopped := h.stopRetStopped,
        extLe := h.extLe,
        extOne := h.extOne,
        handClock := h.handClock,
        heapOk := heapPush_heapInv _ _ h.heapOk,
        neNonempty := fun _ => heapPush_ne_nil _ _,
        waitNonempty := fun _ _ => Or.inr (heapPush_ne_nil _ _),
        occLe := ?_,
        fates := ?_,
        fireLe := ?_,
        discCancel := ?_,
        phase := ?_,
        ticksAdded := ?_,
        ticksPopped := ?_,
        handOrder := ?_,
        firedOrder := ?_ }
    · intro p hp
      rcases (heapPush_mem s.heap (n, t) p).mp hp with rfl | hp0
      · exact ⟨newRec, hnewget, rfl, rfl, rfl, rfl⟩
      · obtain ⟨r0, hr0, hprops⟩ := h.hclean p hp0
        exact ⟨r0, by rw [holdget p.1 (hidlt p hp0)]; exact hr0, hprops⟩
    · intro x hx
      obtain ⟨r0, hr0, ht0⟩ := h.handrec x hx
      have hxl : x.1 < n := getq_lt _ _ _ hr0
      exact ⟨r0, by rw [holdget x.1 hxl]; exact hr0, ht0⟩
    · intro j
      rw [hoccs j]
      by_cases hj : n = j
      · subst hj
        have hopen : occ s n = 0 := by
          cases hhand : s.hand with
          | none =>
            rw [occ_hand_none s hhand n, hidn]
          | some x =>
            obtain ⟨r0, hr0, _⟩ := h.handrec x hhand
            have hxl : x.1 < n := getq_lt _ _ _ hr0
            rw [occ_hand_some s x hhand n, hidn, if_neg (by omega)]
        rw [hopen]
        simp
      · rw [if_neg hj]
        have := h.occLe j
        omega
    · intro hst j r1 hr1
      have hjlt : j < n + 1 := by
        have := getq_lt _ _ _ hr1
        rwa [hlen2] at this
      rw [hoccs j]
      by_cases hj : j = n
      · subst hj
        left
        simp
      · rw [holdget j (by omega)] at hr1
        have hst2 : s.stopped = false := hst
        rcases h.fates hst2 j r1 hr1 with h1 | h1
        · left
          omega
        · right
          exact h1
    · intro j r1 hr1
      have hjlt : j < n + 1 := by
        have := getq_lt _ _ _ hr1
        rwa [hlen2] at this
      by_cases hj : j = n
      · subst hj
        rw [hnewget] at hr1
        have : r1 = newRec := (Option.some.inj hr1).symm
        subst this
        simp
      · rw [holdget j (by omega)] at hr1
        exact h.fireLe j r1 hr1
    · intro j r1 hr1 hd
      have hjlt : j < n + 1 := by
        have := getq_lt _ _ _ hr1
        rwa [hlen2] at this
      by_cases hj : j = n
      · subst hj
        rw [hnewget] at hr1
        have : r1 = newRec := (Option.some.inj hr1).symm
        subst this
        exact absurd hd (by simp)
      · rw [holdget j (by omega)] at hr1
        exact h.discCancel j r1 hr1 hd
    · intro x hx r1 hr1
      obtain ⟨r0, hr0, _⟩ := h.handrec x hx
      have hxl : x.1 < n := getq_lt _ _ _ hr0
      rw [holdget x.1 hxl] at hr1
      exact h.phase x hx r1 hr1
    · intro j r1 hr1
      have hjlt : j < n + 1 := by
        have := getq_lt _ _ _ hr1
        rwa [hlen2] at this
      by_cases hj : j = n
      · subst hj
        rw [hnewget] at hr1
        have : r1 = newRec := (Option.some.inj hr1).symm
        subst this
        simp only []
        omega
      · rw [holdget j (by omega)] at hr1
        have := h.ticksAdded j r1 hr1
        simp only []
        omega
    · intro j r1 hr1 p hp
      have hjlt : j < n + 1 := by
        have := getq_lt _ _ _ hr1
        rwa [hlen2] at this
      by_cases hj : j = n
      · subst hj
        rw [hnewget] at hr1
        have : r1 = newRec := (Option.some.inj hr1).symm
        subst this
        exact absurd hp (by simp)
      · rw [holdget j (by omega)] at hr1
        have := h.ticksPopped j r1 hr1 p hp
        simp only []
        omega
    · intro x hx r2 hr2
      obtain ⟨r0, hr0, _⟩ := h.handrec x hx
      have hxl : x.1 < n := getq_lt _ _ _ hr0
      rw [holdget x.1 hxl] at hr2
      obtain ⟨p, hp, hprop⟩ := h.handOrder x hx r2 hr2
      have hplt : p < s.tick := h.ticksPopped x.1 r2 hr2 p hp
      refine ⟨p, hp, ?_⟩
      intro i1 r1 hr1 ha ht hc
      have hilt : i1 < n + 1 := by
        have := getq_lt _ _ _ hr1
        rwa [hlen2] at this
      by_cases hi1 : i1 = n
      · subst hi1
        rw [hnewget] at hr1
        have : r1 = newRec := (Option.some.inj hr1).symm
        subst this
        exact absurd ha (by simp only []; omega)
      · rw [holdget i1 (by omega)] at hr1
        exact hprop i1 r1 hr1 ha ht hc
    · intro i2 r2 hr2 hfc
      have hilt : i2 < n + 1 := by
        have := getq_lt _ _ _ hr2
        rwa [hlen2] at this
      by_cases hi2 : i2 = n
      · subst hi2
        rw [hnewget] at hr2
        have : r2 = newRec := (Option.some.inj hr2).symm
        subst this
        exact absurd hfc (by simp)
      · rw [holdget i2 (by omega)] at hr2
        obtain ⟨p, hp, hprop⟩ := h.firedOrder i2 r2 hr2 hfc
        have hplt : p < s.tick := h.ticksPopped i2 r2 hr2 p hp
        refine ⟨p, hp, ?_⟩
        intro i1 r1 hr1 ha ht hc
        have hilt1 : i1 < n + 1 := by
          have := getq_lt _ _ _ hr1
          rwa [hlen2] at this
        by_cases hi1 : i1 = n
        · subst hi1
          rw [hnewget] at hr1
          have : r1 = newRec := (Option.some.inj hr1).symm
          subst this
          exact absurd ha (by simp only []; omega)
        · rw [holdget i1 (by omega)] at hr1
          exact hprop i1 r1 hr1 ha ht hc
  · cases hs

theorem inv_wFireBegin (s s2 : State) (h : Inv s)
    (hs : step s .wFireBegin = some s2) : Inv s2 := by
  simp only [step] at hs
  split at hs
  · rename_i hw
    split at hs
    · rename_i x hhx
      split at hs
      · rename_i r hget
        cases hs
        have hstop : s.stopped = false := stopped_false_of_wpc s h (by rw [hw]; rfl)
        have hxlen : x.1 < s.recs.length := getq_lt _ _ _ hget
        have hph := h.phase x hhx r hget
        rw [hw] at hph
        have hnotin : ∀ p ∈ s.heap, p.1 ≠ x.1 := hand_id_not_in_heap s h x hhx
        have hxt : r.t = x.2 := by
          obtain ⟨r0, hr0, ht0⟩ := h.handrec x hhx
          have : r0 = r := Option.some.inj (hr0.symm.trans hget)
          subst this
          exact ht0
        have hocceq : ∀ j, occ { s with
              wpc := WPC.inCallback,
              recs := s.recs.set x.1 (bumpFire r),
              tick := s.tick + 1 } j
            = occ s j := fun j => by
          unfold occ
          rfl
        refine
          { hclean := ?_,
            handrec := ?_,
            handNone := fun hcontra => by simp [handStates] at hcontra,
            handSome := fun _ => ⟨x, hhx⟩,
            stopMu := ?_,
            stopRetStopped := h.stopRetStopped,
            extLe := h.extLe,
            extOne := ?_,
            handClock := fun y hy => h.handClock y hy,
            heapOk := h.heapOk,
            neNonempty := fun hor => by rcases hor with h1 | h1 <;> simp at h1,
            waitNonempty := fun hcontra => by simp at hcontra,
            occLe := ?_,
            fates := ?_,
            fireLe := ?_,
            discCancel := ?_,
            phase := ?_,
            ticksAdded := ?_,
            ticksPopped := ?_,
            handOrder := ?_,
            firedOrder := ?_ }
        · intro p hp
          obtain ⟨r0, hr0, hprops⟩ := h.hclean p hp
          refine ⟨r0, ?_, hprops⟩
          rw [getq_set_ne _ x.1 p.1 _ (fun he => hnotin p hp he.symm)]
          exact hr0
        · intro y hy
          have hyx : x = y := Option.some.inj (hhx.symm.trans hy)
          subst hyx
          exact ⟨bumpFire r, by rw [getq_set_self _ _ _ hxlen],
            by simpa [bumpFire] using hxt⟩
        · intro hst
          exfalso
          have h2 : s.stopped = true := hst
          rw [h2] at hstop
          exact Bool.noConfusion hstop
        · intro hx2
          exfalso
          have h1 := (h.extOne hx2).1
          have h2 := h.stopRetStopped h1
          rw [h2] at hstop
          exact Bool.noConfusion hstop
        · intro j
          rw [hocceq j]
          exact h.occLe j
        · intro hst j r1 hr1
          rw [hocceq j]
          by_cases hj : j = x.1
          · subst hj
            rw [getq_set_self _ _ _ hxlen] at hr1
            have hr1e : r1 = bumpFire r := (Option.some.inj hr1).symm
            subst hr1e
            left
            rw [occ_hand_some s x hhx x.1]
            simp
          · rw [getq_set_ne _ x.1 j _ (fun he => hj he.symm)] at hr1
            exact h.fates hst j r1 hr1
        · intro j r1 hr1
          by_cases hj : j = x.1
          · subst hj
            rw [getq_set_self _ _ _ hxlen] at hr1
            have hr1e : r1 = bumpFire r := (Option.some.inj hr1).symm
            subst hr1e
            simp [bumpFire, hph.1]
          · rw [getq_set_ne _ x.1 j _ (fun he => hj he.symm)] at hr1
            exact h.fireLe j r1 hr1
        · intro j r1 hr1 hd
          by_cases hj : j = x.1
          · subst hj
            rw [getq_set_self _ _ _ hxlen] at hr1
            have hr1e : r1 = bumpFire r := (Option.some.inj hr1).symm
            subst hr1e
            have : r.discarded = true := by simpa [bumpFire] using hd
            simpa [bumpFire] using h.discCancel x.1 r hget this
          · rw [getq_set_ne _ x.1 j _ (fun he => hj he.symm)] at hr1
            exact h.discCancel j r1 hr1 hd
        · intro y hy r1 hr1
          have hyx : x = y := Option.some.inj (hhx.symm.trans hy)
          subst hyx
          rw [getq_set_self _ _ _ hxlen] at hr1
          have hr1e : r1 = bumpFire r := (Option.some.inj hr1).symm
          subst hr1e
          simp [phasePred, bumpFire]
        · intro j r1 hr1
          by_cases hj : j = x.1
          · subst hj
            rw [getq_set_self _ _ _ hxlen] at hr1
            have hr1e : r1 = bumpFire r := (Option.some.inj hr1).symm
            subst hr1e
            have := h.ticksAdded x.1 r hget
            simp only [bumpFire]
            omega
          · rw [getq_set_ne _ x.1 j _ (fun he => hj he.symm)] at hr1
            have := h.ticksAdded j r1 hr1
            simp only []
            omega
        · intro j r1 hr1 p hp
          by_cases hj : j = x.1
          · subst hj
            rw [getq_set_self _ _ _ hxlen] at hr1
            have hr1e : r1 = bumpFire r := (Option.some.inj hr1).symm
            subst hr1e
            have := h.ticksPopped x.1 r hget p (by simpa [bumpFire] using hp)
            simp only []
            omega
          · rw [getq_set_ne _ x.1 j _ (fun he => hj he.symm)] at hr1
            have := h.ticksPopped j r1 hr1 p hp
            simp only []
            omega
        · intro y hy r2 hr2
          have hyx : x = y := Option.some.inj (hhx.symm.trans hy)
          subst hyx
          rw [getq_set_self _ _ _ hxlen] at hr2
          have hr2e : r2 = bumpFire r := (Option.some.inj hr2).symm
          subst hr2e
          obtain ⟨p, hp, hprop⟩ := h.handOrder x hhx r hget
          refine ⟨p, by simpa [bumpFire] using hp, ?_⟩
          intro i1 r1 hr1 ha ht hc
          by_cases hj : i1 = x.1
          · subst hj
            rw [getq_set_self _ _ _ hxlen] at hr1
            have hr1e : r1 = bumpFire r := (Option.some.inj hr1).symm
            subst hr1e
            exfalso
            have : (bumpFire r).t = x.2 := by simpa [bumpFire] using hxt
            rw [this] at ht
            exact lt_irrefl _ ht
          · rw [getq_set_ne _ x.1 i1 _ (fun he => hj he.symm)] at hr1
            exact hprop i1 r1 hr1 ha ht hc
        · intro i2 r2 hr2 hfc
          by_cases hj : i2 = x.1
          · subst hj
            rw [getq_set_self _ _ _ hxlen] at hr2
            have hr2e : r2 = bumpFire r := (Option.some.inj hr2).symm
            subst hr2e
            obtain ⟨p, hp, hprop⟩ := h.handOrder x hhx r hget
            refine ⟨p, by simpa [bumpFire] using hp, ?_⟩
            intro i1 r1 hr1 ha ht hc
            have ht2 : r1.t < x.2 := by
              have : (bumpFire r).t = x.2 := by simpa [bumpFire] using hxt
              rwa [this] at ht
            by_cases hj1 : i1 = x.1
            · subst hj1
              rw [getq_set_self _ _ _ hxlen] at hr1
              have hr1e : r1 = bumpFire r := (Option.some.inj hr1).symm
              subst hr1e
              exfalso
              have h3 : (bumpFire r).t = x.2 := by simpa [bumpFire] using hxt
              rw [h3] at ht2
              exact lt_irrefl _ ht2
            · rw [getq_set_ne _ x.1 i1 _ (fun he => hj1 he.symm)] at hr1
              exact hprop i1 r1 hr1 ha ht2 hc
          · rw [getq_set_ne _ x.1 i2 _ (fun he => hj he.symm)] at hr2
            obtain ⟨p, hp, hprop⟩ := h.firedOrder i2 r2 hr2 hfc
            refine ⟨p, hp, ?_⟩
            intro i1 r1 hr1 ha ht hc
            by_cases hj1 : i1 = x.1
            · subst hj1
              rw [getq_set_self _ _ _ hxlen] at hr1
              have hr1e : r1 = bumpFire r := (Option.some.inj hr1).symm
              subst hr1e
              have := hprop x.1 r hget (by simpa [bumpFire] using ha)
                (by simpa [bumpFire] using ht) (by simpa [bumpFire] using hc)
              simpa [bumpFire] using this
            · rw [getq_set_ne _ x.1 i1 _ (fun he => hj1 he.symm)] at hr1
              exact hprop i1 r1 hr1 ha ht hc
      · cases hs
    · cases hs
  · cases hs

theorem inv_wFireEnd (s s2 : State) (h : Inv s)
    (hs : step s .wFireEnd = some s2) : Inv s2 := by
  simp only [step] at hs
  split at hs
  · rename_i hw
    split at hs
    · rename_i x hhx
      split at hs
      · rename_i r hget
        cases hs
        have hstop : s.stopped = false := stopped_false_of_wpc s h (by rw [hw]; rfl)
        have hxlen : x.1 < s.recs.length := getq_lt _ _ _ hget
        have hph := h.phase x hhx r hget
        rw [hw] at hph
        have hnotin : ∀ p ∈ s.heap, p.1 ≠ x.1 := hand_id_not_in_heap s h x hhx
        have hxt : r.t = x.2 := by
          obtain ⟨r0, hr0, ht0⟩ := h.handrec x hhx
          have : r0 = r := Option.some.inj (hr0.symm.trans hget)
          subst this
          exact ht0
        have hocceq : ∀ j, occ { s with
              wpc := WPC.fired,
              recs := s.recs.set x.1 (markEnded r),
              tick := s.tick + 1 } j
            = occ s j := fun j => by
          unfold occ
          rfl
        refine
          { hclean := ?_,
            handrec := ?_,
            handNone := fun hcontra => by simp [handStates] at hcontra,
            handSome := fun _ => ⟨x, hhx⟩,
            stopMu := ?_,
            stopRetStopped := h.stopRetStopped,
            extLe := h.extLe,
            extOne := ?_,
            handClock := fun y hy => h.handClock y hy,
            heapOk := h.heapOk,
            neNonempty := fun hor => by rcases hor with h1 | h1 <;> simp at h1,
            waitNonempty := fun hcontra => by simp at hcontra,
            occLe := ?_,
            fates := ?_,
            fireLe := ?_,
            discCancel := ?_,
            phase := ?_,
            ticksAdded := ?_,
            ticksPopped := ?_,
            handOrder := ?_,
            firedOrder := ?_ }
        · intro p hp
          obtain ⟨r0, hr0, hprops⟩ := h.hclean p hp
          refine ⟨r0, ?_, hprops⟩
          rw [getq_set_ne _ x.1 p.1 _ (fun he => hnotin p hp he.symm)]
          exact hr0
        · intro y hy
          have hyx : x = y := Option.some.inj (hhx.symm.trans hy)
          subst hyx
          exact ⟨markEnded r, by rw [getq_set_self _ _ _ hxlen],
            by simpa [markEnded] using hxt⟩
        · intro hst
          exfalso
          have h2 : s.stopped = true := hst
          rw [h2] at hstop
          exact Bool.noConfusion hstop
        · intro hx2
          exfalso
          have h1 := (h.extOne hx2).1
          have h2 := h.stopRetStopped h1
          rw [h2] at hstop
          exact Bool.noConfusion hstop
        · intro j
          rw [hocceq j]
          exact h.occLe j
        · intro hst j r1 hr1
          rw [hocceq j]
          by_cases hj : j = x.1
          · subst hj
            rw [getq_set_self _ _ _ hxlen] at hr1
            have hr1e : r1 = markEnded r := (Option.some.inj hr1).symm
            subst hr1e
            right
            right
            simp [markEnded]
          · rw [getq_set_ne _ x.1 j _ (fun he => hj he.symm)] at hr1
            exact h.fates hst j r1 hr1
        · intro j r1 hr1
          by_cases hj : j = x.1
          · subst hj
            rw [getq_set_self _ _ _ hxlen] at hr1
            have hr1e : r1 = markEnded r := (Option.some.inj hr1).symm
            subst hr1e
            simpa [markEnded] using h.fireLe x.1 r hget
          · rw [getq_set_ne _ x.1 j _ (fun he => hj he.symm)] at hr1
            exact h.fireLe j r1 hr1
        · intro j r1 hr1 hd
          by_cases hj : j = x.1
          · subst hj
            rw [getq_set_self _ _ _ hxlen] at hr1
            have hr1e : r1 = markEnded r := (Option.some.inj hr1).symm
            subst hr1e
            have : r.discarded = true := by simpa [markEnded] using hd
            simpa [markEnded] using h.discCancel x.1 r hget this
          · rw [getq_set_ne _ x.1 j _ (fun he => hj he.symm)] at hr1
            exact h.discCancel j r1 hr1 hd
        · intro y hy r1 hr1
          have hyx : x = y := Option.some.inj (hhx.symm.trans hy)
          subst hyx
          rw [getq_set_self _ _ _ hxlen] at hr1
          have hr1e : r1 = markEnded r := (Option.some.inj hr1).symm
          subst hr1e
          simp [phasePred, markEnded]
        · intro j r1 hr1
          by_cases hj : j = x.1
          · subst hj
            rw [getq_set_self _ _ _ hxlen] at hr1
            have hr1e : r1 = markEnded r := (Option.some.inj hr1).symm
            subst hr1e
            have := h.ticksAdded x.1 r hget
            simp only [markEnded]
            omega
          · rw [getq_set_ne _ x.1 j _ (fun he => hj he.symm)] at hr1
            have := h.ticksAdded j r1 hr1
            simp only []
            omega
        · intro j r1 hr1 p hp
          by_cases hj : j = x.1
          · subst hj
            rw [getq_set_self _ _ _ hxlen] at hr1
            have hr1e : r1 = markEnded r := (Option.some.inj hr1).symm
            subst hr1e
            have := h.ticksPopped x.1 r hget p (by simpa [markEnded] using hp)
            simp only []
            omega
          · rw [getq_set_ne _ x.1 j _ (fun he => hj he.symm)] at hr1
            have := h.ticksPopped j r1 hr1 p hp
            simp only []
            omega
        · intro y hy r2 hr2
          have hyx : x = y := Option.some.inj (hhx.symm.trans hy)
          subst hyx
          rw [getq_set_self _ _ _ hxlen] at hr2
          have hr2e : r2 = markEnded r := (Option.some.inj hr2).symm
          subst hr2e
          obtain ⟨p, hp, hprop⟩ := h.handOrder x hhx r hget
          refine ⟨p, by simpa [markEnded] using hp, ?_⟩
          intro i1 r1 hr1 ha ht hc
          by_cases hj : i1 = x.1
          · subst hj
            rw [getq_set_self _ _ _ hxlen] at hr1
            have hr1e : r1 = markEnded r := (Option.some.inj hr1).symm
            subst hr1e
            simp [markEnded]
          · rw [getq_set_ne _ x.1 i1 _ (fun he => hj he.symm)] at hr1
            exact hprop i1 r1 hr1 ha ht hc
        · intro i2 r2 hr2 hfc
          by_cases hj : i2 = x.1
          · subst hj
            rw [getq_set_self _ _ _ hxlen] at hr2
            have hr2e : r2 = markEnded r := (Option.some.inj hr2).symm
            subst hr2e
            obtain ⟨p, hp, hprop⟩ := h.handOrder x hhx r hget
            refine ⟨p, by simpa [markEnded] using hp, ?_⟩
            intro i1 r1 hr1 ha ht hc
            have ht2 : r1.t < x.2 := by
              have h3 : (markEnded r).t = x.2 := by simpa [markEnded] using hxt
              rwa [h3] at ht
            by_cases hj1 : i1 = x.1
            · subst hj1
              rw [getq_set_self _ _ _ hxlen] at hr1
              have hr1e : r1 = markEnded r := (Option.some.inj hr1).symm
              subst hr1e
              simp [markEnded]
            · rw [getq_set_ne _ x.1 i1 _ (fun he => hj1 he.symm)] at hr1
              exact hprop i1 r1 hr1 ha ht2 hc
          · rw [getq_set_ne _ x.1 i2 _ (fun he => hj he.symm)] at hr2
            obtain ⟨p, hp, hprop⟩ := h.firedOrder i2 r2 hr2 hfc
            refine ⟨p, hp, ?_⟩
            intro i1 r1 hr1 ha ht hc
            by_cases hj1 : i1 = x.1
            · subst hj1
              rw [getq_set_self _ _ _ hxlen] at hr1
              have hr1e : r1 = markEnded r := (Option.some.inj hr1).symm
              subst hr1e
              simp [markEnded]
            · rw [getq_set_ne _ x.1 i1 _ (fun he => hj1 he.symm)] at hr1
              exact hprop i1 r1 hr1 ha ht hc
      · cases hs
    · cases hs
  · cases hs

theorem inv_wCheck (s s2 : State) (h : Inv s)
    (hs : step s .wCheck = some s2) : Inv s2 := by
  simp only [step] at hs
  split at hs
  · rename_i hw
    have hstop : s.stopped = false := stopped_false_of_wpc s h (by rw [hw]; rfl)
    have hhand : s.hand = none := h.handNone (by rw [hw]; rfl)
    have hext0 : s.extAfterStop = 0 :=
      ext_zero_of_wpc s h (by rw [hw]; simp) (by rw [hw]; simp)
    split at hs
    · cases hs
    · rename_i m rest hheap
      have hne : s.heap ≠ [] := by rw [hheap]; simp
      have hfst : (heapPop s.heap).1 = m := by
        rw [heapPop_fst s.heap hne, hheap]
        rfl
      have hmem : m ∈ s.heap := by rw [hheap]; exact List.mem_cons_self m rest
      have hmin : ∀ q ∈ s.heap, m.2 ≤ q.2 := by
        intro q hq
        have h2 := head_le_of_heapInv s.heap h.heapOk q hq
        rw [hheap] at h2
        simpa using h2
      split at hs
      · rename_i hclk
        rw [hfst] at hs
        split at hs
        · rename_i r hget
          have hxlen : m.1 < s.recs.length := getq_lt _ _ _ hget
          obtain ⟨r0, hr0, hrt, hrfc, hrend, hrdisc⟩ := h.hclean m hmem
          have hr0r : r0 = r := Option.some.inj (hr0.symm.trans hget)
          rw [hr0r] at hrt hrfc hrend hrdisc
          have hrestrec : ∀ p ∈ (heapPop s.heap).2, p.1 ≠ m.1 := by
            have hocc := h.occLe m.1
            rw [occ_hand_none s hhand m.1] at hocc
            have hidp := idCount_pop s.heap hne m.1
            rw [hfst] at hidp
            simp at hidp
            have h0 : idCount (heapPop s.heap).2 m.1 = 0 := by omega
            exact (idCount_zero_iff _ _).mp h0
          have hidrest : ∀ j, j ≠ m.1 →
              idCount (heapPop s.heap).2 j = idCount s.heap j := by
            intro j hj
            have hidp := idCount_pop s.heap hne j
            rw [hfst] at hidp
            rw [if_neg (fun he => hj he.symm)] at hidp
            omega
          have hprest : ∀ p, p ∈ (heapPop s.heap).2 → p ∈ s.heap :=
            fun p hp => heapPop_rest_mem s.heap hne p hp
          -- the key establishment of the ordering property at pop time:
          -- every earlier-deadline uncancelled record has already finished.
          have hkey : ∀ i1 r1, s.recs.get? i1 = some r1 → r1.t < m.2 →
              r1.cancel = false → r1.ended = true := by
            intro i1 r1 hr1 ht hc
            have hno : ∀ q ∈ s.heap, q.1 ≠ i1 := by
              intro q hq hqe
              obtain ⟨rq, hrq, htq, _⟩ := h.hclean q hq
              rw [hqe] at hrq
              have hrq1 : rq = r1 := Option.some.inj (hrq.symm.trans hr1)
              subst hrq1
              have := hmin q hq
              rw [← htq] at this
              omega
            have hocc0 : occ s i1 = 0 := by
              rw [occ_hand_none s hhand i1]
              exact (idCount_zero_iff _ _).mpr hno
            rcases h.fates hstop i1 r1 hr1 with h1 | h1 | h1
            · rw [hocc0] at h1
              omega
            · have := h.discCancel i1 r1 hr1 h1
              rw [hc] at this
              exact Bool.noConfusion this
            · exact h1
          split at hs
          · -- the popped record was cancelled: discard it (lines 206, 237)
            rename_i hcanc
            cases hs
            refine
              { hclean := ?_,
                handrec := ?_,
                handNone := fun _ => hhand,
                handSome := fun hcontra => by simp [handStates] at hcontra,
                stopMu := ?_,
                stopRetStopped := h.stopRetStopped,
                extLe := h.extLe,
                extOne := ?_,
                handClock := ?_,
                heapOk := heapPop_heapInv s.heap h.heapOk,
                neNonempty := fun hor => by rcases hor with h1 | h1 <;> simp at h1,
                waitNonempty := fun hcontra => by simp at hcontra,
                occLe := ?_,
                fates := ?_,
                fireLe := ?_,
                discCancel := ?_,
                phase := ?_,
                ticksAdded := ?_,
                ticksPopped := ?_,
                handOrder := ?_,
                firedOrder := ?_ }
            · intro p hp
              obtain ⟨rp, hrp, hprops⟩ := h.hclean p (hprest p hp)
              refine ⟨rp, ?_, hprops⟩
              rw [getq_set_ne _ m.1 p.1 _ (fun he => hrestrec p hp he.symm)]
              exact hrp
            · intro y hy
              simp only [] at hy
              rw [hhand] at hy
              exact Option.noConfusion hy
            · intro hst
              exfalso
              have h2 : s.stopped = true := hst
              rw [h2] at hstop
              exact Bool.noConfusion hstop
            · intro hx2
              have hx3 : 1 ≤ s.extAfterStop := hx2
              rw [hext0] at hx3
              omega
            · intro y hy
              simp only [] at hy
              rw [hhand] at hy
              exact Option.noConfusion hy
            · intro j
              have hocc := h.occLe j
              rw [occ_hand_none s hhand j] at hocc
              have h2 : occ { s with
                    recs := s.recs.set m.1 (markPopped r s.tick true),
                    heap := (heapPop s.heap).2,
                    wpc := WPC.top,
                    tick := s.tick + 1 } j
                  = idCount (heapPop s.heap).2 j :=
                occ_hand_none _ (by simp only []; exact hhand) j
              rw [h2]
              have hidp := idCount_pop s.heap hne j
              omega
            · intro hst j r1 hr1
              have h2 : occ { s with
                    recs := s.recs.set m.1 (markPopped r s.tick true),
                    heap := (heapPop s.heap).2,
                    wpc := WPC.top,
                    tick := s.tick + 1 } j
                  = idCount (heapPop s.heap).2 j :=
                occ_hand_none _ (by simp only []; exact hhand) j
              by_cases hj : j = m.1
              · subst hj
                rw [getq_set_self _ _ _ hxlen] at hr1
                have hr1e : r1 = markPopped r s.tick true := (Option.some.inj hr1).symm
                subst hr1e
                exact Or.inr (Or.inl rfl)
              · rw [getq_set_ne _ m.1 j _ (fun he => hj he.symm)] at hr1
                rcases h.fates hstop j r1 hr1 with h1 | h1
                · left
                  rw [h2, hidrest j hj]
                  rw [occ_hand_none s hhand j] at h1
                  exact h1
                · exact Or.inr h1
            · intro j r1 hr1
              by_cases hj : j = m.1
              · subst hj
                rw [getq_set_self _ _ _ hxlen] at hr1
                have hr1e : r1 = markPopped r s.tick true := (Option.some.inj hr1).symm
                subst hr1e
                simp [markPopped, hrfc]
              · rw [getq_set_ne _ m.1 j _ (fun he => hj he.symm)] at hr1
                exact h.fireLe j r1 hr1
            · intro j r1 hr1 hd
              by_cases hj : j = m.1
              · subst hj
                rw [getq_set_self _ _ _ hxlen] at hr1
                have hr1e : r1 = markPopped r s.tick true := (Option.some.inj hr1).symm
                subst hr1e
                simpa [markPopped] using hcanc
              · rw [getq_set_ne _ m.1 j _ (fun he => hj he.symm)] at hr1
                exact h.discCancel j r1 hr1 hd
            · intro y hy
              simp only [] at hy
              rw [hhand] at hy
              exact Option.noConfusion hy
            · intro j r1 hr1
              by_cases hj : j = m.1
              · subst hj
                rw [getq_set_self _ _ _ hxlen] at hr1
                have hr1e : r1 = markPopped r s.tick true := (Option.some.inj hr1).symm
                subst hr1e
                have := h.ticksAdded m.1 r hget
                simp only [markPopped]
                omega
              · rw [getq_set_ne _ m.1 j _ (fun he => hj he.symm)] at hr1
                have := h.ticksAdded j r1 hr1
                simp only []
                omega
            · intro j r1 hr1 p hp
              by_cases hj : j = m.1
              · subst hj
                rw [getq_set_self _ _ _ hxlen] at hr1
                have hr1e : r1 = markPopped r s.tick true := (Option.some.inj hr1).symm
                subst hr1e
                have hp2 : p = s.tick := by
                  have h3 : (markPopped r s.tick true).poppedAt = some s.tick := rfl
                  rw [h3] at hp
                  exact (Option.some.inj hp).symm
                subst hp2
                simp only []
                omega
              · rw [getq_set_ne _ m.1 j _ (fun he => hj he.symm)] at hr1
                have := h.ticksPopped j r1 hr1 p hp
                simp only []
                omega
            · intro y hy
              simp only [] at hy
              rw [hhand] at hy
              exact Option.noConfusion hy
            · intro i2 r2 hr2 hfc
              by_cases hj : i2 = m.1
              · subst hj
                rw [getq_set_self _ _ _ hxlen] at hr2
                have hr2e : r2 = markPopped r s.tick true := (Option.some.inj hr2).symm
                subst hr2e
                exfalso
                have h3 : (markPopped r s.tick true).fireCount = 0 := by
                  simp [markPopped, hrfc]
                rw [h3] at hfc
                omega
              · rw [getq_set_ne _ m.1 i2 _ (fun he => hj he.symm)] at hr2
                obtain ⟨p, hp, hprop⟩ := h.firedOrder i2 r2 hr2 hfc
                refine ⟨p, hp, ?_⟩
                intro i1 r1 hr1 ha ht hc
                by_cases hj1 : i1 = m.1
                · subst hj1
                  rw [getq_set_self _ _ _ hxlen] at hr1
                  have hr1e : r1 = markPopped r s.tick true := (Option.some.inj hr1).symm
                  subst hr1e
                  have := hprop m.1 r hget (by simpa [markPopped] using ha)
                    (by simpa [markPopped] using ht) (by simpa [markPopped] using hc)
                  simpa [markPopped] using this
                · rw [getq_set_ne _ m.1 i1 _ (fun he => hj1 he.symm)] at hr1
                  exact hprop i1 r1 hr1 ha ht hc
          · -- the popped record was live: carry it to the lock-order dance
            rename_i hcanc
            cases hs
            have hcancf : r.cancel = false := by
              cases hb : r.cancel
              · rfl
              · exact absurd hb hcanc
            refine
              { hclean := ?_,
                handrec := ?_,
                handNone := fun hcontra => by simp [handStates] at hcontra,
                handSome := fun _ => ⟨m, rfl⟩,
                stopMu := ?_,
                stopRetStopped := h.stopRetStopped,
                extLe := h.extLe,
                extOne := ?_,
                handClock := ?_,
                heapOk := heapPop_heapInv s.heap h.heapOk,
                neNonempty := fun hor => by rcases hor with h1 | h1 <;> simp at h1,
                waitNonempty := fun hcontra => by simp at hcontra,
                occLe := ?_,
                fates := ?_,
                fireLe := ?_,
                discCancel := ?_,
                phase := ?_,
                ticksAdded := ?_,
                ticksPopped := ?_,
                handOrder := ?_,
                firedOrder := ?_ }
            · intro p hp
              obtain ⟨rp, hrp, hprops⟩ := h.hclean p (hprest p hp)
              refine ⟨rp, ?_, hprops⟩
              rw [getq_set_ne _ m.1 p.1 _ (fun he => hrestrec p hp he.symm)]
              exact hrp
            · intro y hy
              have hym : m = y := Option.some.inj hy
              subst hym
              exact ⟨markPopped r s.tick false, by rw [getq_set_self _ _ _ hxlen],
                by simpa [markPopped] using hrt⟩
            · intro hst
              exfalso
              have h2 : s.stopped = true := hst
              rw [h2] at hstop
              exact Bool.noConfusion hstop
            · intro hx2
              have hx3 : 1 ≤ s.extAfterStop := hx2
              rw [hext0] at hx3
              omega
            · intro y hy
              have hym : m = y := Option.some.inj hy
              subst hym
              exact hclk
            · intro j
              have hocc := h.occLe j
              rw [occ_hand_none s hhand j] at hocc
              have h2 : occ { s with
                    recs := s.recs.set m.1 (markPopped r s.tick false),
                    heap := (heapPop s.heap).2,
                    hand := some m,
                    wpc := WPC.lockingExt,
                    tick := s.tick + 1 } j
                  = idCount (heapPop s.heap).2 j + (if m.1 = j then 1 else 0) :=
                occ_hand_some _ m rfl j
              rw [h2]
              have hidp := idCount_pop s.heap hne j
              rw [hfst] at hidp
              omega
            · intro hst j r1 hr1
              have h2 : occ { s with
                    recs := s.recs.set m.1 (markPopped r s.tick false),
                    heap := (heapPop s.heap).2,
                    hand := some m,
                    wpc := WPC.lockingExt,
                    tick := s.tick + 1 } j
                  = idCount (heapPop s.heap).2 j + (if m.1 = j then 1 else 0) :=
                occ_hand_some _ m rfl j
              by_cases hj : j = m.1
              · subst hj
                left
                rw [h2, if_pos rfl]
                omega
              · rw [getq_set_ne _ m.1 j _ (fun he => hj he.symm)] at hr1
                rcases h.fates hstop j r1 hr1 with h1 | h1
                · left
                  rw [h2, if_neg (fun he => hj he.symm), hidrest j hj]
                  rw [occ_hand_none s hhand j] at h1
                  exact h1
                · exact Or.inr h1
            · intro j r1 hr1
              by_cases hj : j = m.1
              · subst hj
                rw [getq_set_self _ _ _ hxlen] at hr1
                have hr1e : r1 = markPopped r s.tick false := (Option.some.inj hr1).symm
                subst hr1e
                simp [markPopped, hrfc]
              · rw [getq_set_ne _ m.1 j _ (fun he => hj he.symm)] at hr1
                exact h.fireLe j r1 hr1
            · intro j r1 hr1 hd
              by_cases hj : j = m.1
              · subst hj
                rw [getq_set_self _ _ _ hxlen] at hr1
                have hr1e : r1 = markPopped r s.tick false := (Option.some.inj hr1).symm
                subst hr1e
                exfalso
                have h3 : (markPopped r s.tick false).discarded = false := rfl
                rw [h3] at hd
                exact Bool.noConfusion hd
              · rw [getq_set_ne _ m.1 j _ (fun he => hj he.symm)] at hr1
                exact h.discCancel j r1 hr1 hd
            · intro y hy r1 hr1
              have hym : m = y := Option.some.inj hy
              subst hym
              rw [getq_set_self _ _ _ hxlen] at hr1
              have hr1e : r1 = markPopped r s.tick false := (Option.some.inj hr1).symm
              subst hr1e
              simp [phasePred, markPopped, hrfc, hrend]
            · intro j r1 hr1
              by_cases hj : j = m.1
              · subst hj
                rw [getq_set_self _ _ _ hxlen] at hr1
                have hr1e : r1 = markPopped r s.tick false := (Option.some.inj hr1).symm
                subst hr1e
                have := h.ticksAdded m.1 r hget
                simp only [markPopped]
                omega
              · rw [getq_set_ne _ m.1 j _ (fun he => hj he.symm)] at hr1
                have := h.ticksAdded j r1 hr1
                simp only []
                omega
            · intro j r1 hr1 p hp
              by_cases hj : j = m.1
              · subst hj
                rw [getq_set_self _ _ _ hxlen] at hr1
                have hr1e : r1 = markPopped r s.tick false := (Option.some.inj hr1).symm
                subst hr1e
                have hp2 : p = s.tick := by
                  have h3 : (markPopped r s.tick false).poppedAt = some s.tick := rfl
                  rw [h3] at hp
                  exact (Option.some.inj hp).symm
                subst hp2
                simp only []
                omega
              · rw [getq_set_ne _ m.1 j _ (fun he => hj he.symm)] at hr1
                have := h.ticksPopped j r1 hr1 p hp
                simp only []
                omega
            · intro y hy r2 hr2
              have hym : m = y := Option.some.inj hy
              subst hym
              rw [getq_set_self _ _ _ hxlen] at hr2
              have hr2e : r2 = markPopped r s.tick false := (Option.some.inj hr2).symm
              subst hr2e
              refine ⟨s.tick, rfl, ?_⟩
              intro i1 r1 hr1 ha ht hc
              by_cases hj1 : i1 = m.1
              · subst hj1
                rw [getq_set_self _ _ _ hxlen] at hr1
                have hr1e : r1 = markPopped r s.tick false := (Option.some.inj hr1).symm
                subst hr1e
                exfalso
                have h3 : (markPopped r s.tick false).t = m.2 := by
                  simpa [markPopped] using hrt
                rw [h3] at ht
                exact lt_irrefl _ ht
              · rw [getq_set_ne _ m.1 i1 _ (fun he => hj1 he.symm)] at hr1
                exact hkey i1 r1 hr1 ht hc
            · intro i2 r2 hr2 hfc
              by_cases hj : i2 = m.1
              · subst hj
                rw [getq_set_self _ _ _ hxlen] at hr2
                have hr2e : r2 = markPopped r s.tick false := (Option.some.inj hr2).symm
                subst hr2e
                exfalso
                have h3 : (markPopped r s.tick false).fireCount = 0 := by
                  simp [markPopped, hrfc]
                rw [h3] at hfc
                omega
              · rw [getq_set_ne _ m.1 i2 _ (fun he => hj he.symm)] at hr2
                obtain ⟨p, hp, hprop⟩ := h.firedOrder i2 r2 hr2 hfc
                refine ⟨p, hp, ?_⟩
                intro i1 r1 hr1 ha ht hc
                by_cases hj1 : i1 = m.1
                · subst hj1
                  rw [getq_set_self _ _ _ hxlen] at hr1
                  have hr1e : r1 = markPopped r s.tick false := (Option.some.inj hr1).symm
                  subst hr1e
                  have := hprop m.1 r hget (by simpa [markPopped] using ha)
                    (by simpa [markPopped] using ht) (by simpa [markPopped] using hc)
                  simpa [markPopped] using this
                · rw [getq_set_ne _ m.1 i1 _ (fun he => hj1 he.symm)] at hr1
                  exact hprop i1 r1 hr1 ha ht hc
        · cases hs
      · -- now.After(to.t) is false: unlock and sleep (lines 193-197)
        rename_i hclk
        cases hs
        exact inv_retarget s .sleeping s.wake s.awoken h
          (fun _ => hhand)
          (fun hcontra => by simp [handStates] at hcontra)
          (fun hst => by rw [hst] at hstop; exact Bool.noConfusion hstop)
          (fun hx2 => by rw [hext0] at hx2; omega)
          (fun _ => hne)
          (fun hcontra => by simp at hcontra)
          (fun x hx r hr => trivial)
  · cases hs

theorem inv_step (s : State) (l : Label) (s2 : State) (h : Inv s)
    (hs : step s l = some s2) : Inv s2 := by
  cases l with
  | advance d => exact inv_advance s s2 d h hs
  | clientAdd t => exact inv_clientAdd s s2 t h hs
  | clientCancel i => exact inv_clientCancel s s2 i h hs
  | clientStop => exact inv_clientStop s s2 h hs
  | wTop => exact inv_wTop s s2 h hs
  | wWake => exact inv_wWake s s2 h hs
  | wCheck => exact inv_wCheck s s2 h hs
  | wSleepTimer => exact inv_wSleepTimer s s2 h hs
  | wSleepWake => exact inv_wSleepWake s s2 h hs
  | wLockExt => exact inv_wLockExt s s2 h hs
  | wLockInt => exact inv_wLockInt s s2 h hs
  | wFireBegin => exact inv_wFireBegin s s2 h hs
  | wFireEnd => exact inv_wFireEnd s s2 h hs
  | wUnlockExt => exact inv_wUnlockExt s s2 h hs
  | wUnlockInt => exact inv_wUnlockInt s s2 h hs

theorem reach_Inv (s : State) (hr : Reachable s) : Inv s :=
  reachable_inv Inv inv_init (fun s l s2 h hs => inv_step s l s2 h hs) s hr

/- Concrete executions used to instantiate the theorems below. -/

/-- Execution: one timeout with deadline 5 is added, the clock moves to
10, the worker pops it and enters its callback. -/
def lsFire : List Label :=
  [.clientAdd 5, .advance 10, .wTop, .wCheck, .wLockExt, .wLockInt, .wFireBegin]

def stFire : State := (run init lsFire).getD init


/-- Execution refuting the literal form of C3: a record is added and
popped; Stop runs to completion while the worker is between
d.mu.Unlock() (line 211) and d.locker.Lock() (line 212); the worker then
acquires the external mutex although Stop has already returned. -/
def lsC3 : List Label :=
  [.clientAdd 0, .advance 1, .wTop, .wCheck, .clientStop, .wLockExt]

def stC3 : State := (run init lsC3).getD init

/-- Execution refuting the literal form of C5: a record with deadline 1
fires completely, then a record with deadline 0 is added afterwards and
is still pending. -/
def lsC5x : List Label :=
  [.clientAdd 1, .advance 5, .wTop, .wCheck, .wLockExt, .wLockInt,
   .wFireBegin, .wFireEnd, .wUnlockExt, .wUnlockInt, .clientAdd 0]

def stC5x : State := (run init lsC5x).getD init

/-- Execution with two records fired in deadline order (3 before 5),
stopped just after the second callback begins. -/
def lsC5w : List Label :=
  [.clientAdd 3, .clientAdd 5, .advance 10, .wTop, .wCheck, .wLockExt,
   .wLockInt, .wFireBegin, .wFireEnd, .wUnlockExt, .wUnlockInt, .wTop,
   .wCheck, .wLockExt, .wLockInt, .wFireBegin]

def stC5w : State := (run init lsC5w).getD init

/-- Execution reaching the sleep-loop check with the clock strictly past
the deadline. -/
def lsC6w : List Label := [.clientAdd 5, .advance 10, .wTop]

def stC6w : State := (run init lsC6w).getD init

/-- Execution reaching the sleep-loop check with the clock exactly equal
to the deadline (delta = 0). -/
def lsC6x : List Label := [.clientAdd 5, .advance 5, .wTop]

def stC6x : State := (run init lsC6x).getD init

def stC6y : State := (step stC6x .wCheck).getD init

/-- Execution that has just finished running a callback: the worker sits
at line 235 holding both mutexes. -/
def lsC7 : List Label :=
  [.clientAdd 5, .advance 10, .wTop, .wCheck, .wLockExt, .wLockInt,
   .wFireBegin, .wFireEnd]

def stC7 : State := (run init lsC7).getD init

def stC7b : State := (step stC7 .wUnlockExt).getD init

/-- Execution where Stop has returned. -/
def lsC4w : List Label := [.clientStop]

def stC4w : State := (run init lsC4w).getD init

/-- Execution with two pending timeouts, deadlines 3 and 5. -/
def lsC9w : List Label := [.clientAdd 3, .clientAdd 5]

def stC9w : State := (run init lsC9w).getD init

/-- Labels of the worker goroutine, as opposed to client calls and the
advance of the clock. -/
def isWorkerLabel : Label → Bool
  | .advance _ => false
  | .clientAdd _ => false
  | .clientCancel _ => false
  | .clientStop => false
  | _ => true

/-- Replacing the record at index j with a value whose cancel flag is
no smaller preserves the truth of any record's cancel flag. -/
theorem cancel_set_pres (recs : List Rec) (j : Nat) (rj v : Rec)
    (hj : recs.get? j = some rj) (hv : v.cancel = rj.cancel ∨ v.cancel = true)
    (i : Nat) (r : Rec) (hg : recs.get? i = some r) (hc : r.cancel = true) :
    ∃ r2, (recs.set j v).get? i = some r2 ∧ r2.cancel = true := by
  by_cases he : j = i
  · subst he
    have hjr : rj = r := Option.some.inj (hj.symm.trans hg)
    refine ⟨v, getq_set_self _ _ _ (getq_lt _ _ _ hg), ?_⟩
    rcases hv with hv | hv
    · rw [hv, hjr, hc]
    · exact hv
  · exact ⟨r, by rw [getq_set_ne _ _ _ _ he]; exact hg, hc⟩

/-- Once a record's cancel flag is set it is set in every successor
state, whatever the transition: no transition of the system clears the
flag (the only writes are the store of 1 in Cancel, line 65, and the
bookkeeping updates, none of which touch the flag). -/
theorem cancel_mono (s : State) (l : Label) (s2 : State)
    (hs : step s l = some s2) (i : Nat) (r : Rec)
    (hg : s.recs.get? i = some r) (hc : r.cancel = true) :
    ∃ r2, s2.recs.get? i = some r2 ∧ r2.cancel = true := by
  cases l with
  | advance d =>
    simp only [step] at hs
    cases hs
    exact ⟨r, hg, hc⟩
  | clientAdd t =>
    simp only [step] at hs
    split at hs
    · cases hs
      refine ⟨r, ?_, hc⟩
      show (s.recs ++ _).get? i = some r
      rw [getq_append_lt _ _ i (getq_lt _ _ _ hg)]
      exact hg
    · cases hs
  | clientCancel j =>
    simp only [step] at hs
    split at hs
    · rename_i rj hj
      cases hs
      exact cancel_set_pres s.recs j rj (setCancel rj) hj (Or.inr rfl) i r hg hc
    · cases hs
  | clientStop =>
    simp only [step] at hs
    split at hs
    · cases hs
      exact ⟨r, hg, hc⟩
    · cases hs
  | wTop =>
    simp only [step] at hs
    split at hs
    · split at hs
      · cases hs
        exact ⟨r, hg, hc⟩
      · split at hs
        · cases hs
          exact ⟨r, hg, hc⟩
        · cases hs
          exact ⟨r, hg, hc⟩
    · cases hs
  | wWake =>
    simp only [step] at hs
    split at hs
    · split at hs
      · cases hs
        exact ⟨r, hg, hc⟩
      · cases hs
        exact ⟨r, hg, hc⟩
    · cases hs
  | wCheck =>
    simp only [step] at hs
    split at hs
    · split at hs
      · cases hs
      · split at hs
        · split at hs
          · rename_i rj hj
            split at hs
            · cases hs
              exact cancel_set_pres s.recs _ rj (markPopped rj s.tick true) hj
                (Or.inl rfl) i r hg hc
            · cases hs
              exact cancel_set_pres s.recs _ rj (markPopped rj s.tick false) hj
                (Or.inl rfl) i r hg hc
          · cases hs
        · cases hs
          exact ⟨r, hg, hc⟩
    · cases hs
  | wSleepTimer =>
    simp only [step] at hs
    split at hs
    · split at hs
      · cases hs
        exact ⟨r, hg, hc⟩
      · cases hs
        exact ⟨r, hg, hc⟩
    · cases hs
  | wSleepWake =>
    simp only [step] at hs
    split at hs
    · split at hs
      · cases hs
        exact ⟨r, hg, hc⟩
      · cases hs
        exact ⟨r, hg, hc⟩
    · cases hs
  | wLockExt =>
    simp only [step] at hs
    split at hs
    · cases hs
      exact ⟨r, hg, hc⟩
    · cases hs
  | wLockInt =>
    simp only [step] at hs
    split at hs
    · split at hs
      · cases hs
        exact ⟨r, hg, hc⟩
      · split at hs
        · rename_i x hx
          split at hs
          · rename_i rj hj
            split at hs
            · cases hs
              exact cancel_set_pres s.recs _ rj (markDiscarded rj) hj
                (Or.inl rfl) i r hg hc
            · cases hs
              exact ⟨r, hg, hc⟩
          · cases hs
        · cases hs
    · cases hs
  | wFireBegin =>
    simp only [step] at hs
    split at hs
    · split at hs
      · rename_i x hx
        split at hs
        · rename_i rj hj
          cases hs
          exact cancel_set_pres s.recs _ rj (bumpFire rj) hj (Or.inl rfl) i r hg hc
        · cases hs
      · cases hs
    · cases hs
  | wFireEnd =>
    simp only [step] at hs
    split at hs
    · split at hs
      · rename_i x hx
        split at hs
        · rename_i rj hj
          cases hs
          exact cancel_set_pres s.recs _ rj (markEnded rj) hj (Or.inl rfl) i r hg hc
        · cases hs
      · cases hs
    · cases hs
  | wUnlockExt =>
    simp only [step] at hs
    split at hs
    · cases hs
      exact ⟨r, hg, hc⟩
    · cases hs
  | wUnlockInt =>
    simp only [step] at hs
    split at hs
    · cases hs
      exact ⟨r, hg, hc⟩
    · cases hs

/- ------------------------------------------------------------------ -/
/- The claims.                                                        -/
/- ------------------------------------------------------------------ -/

/-- C1: for every timeout record whose callback is invoked by the daemon
worker, the monotonic clock value at the entry of the callback
invocation is greater than or equal to the record deadline; the worker
pops a record and fires it only after observing now.After(deadline)
(timeout.go lines 188-205, 230-234).  In the model, whenever the worker
is executing a callback (wpc = inCallback) on the record in its hand,
the current clock is at least (in fact strictly greater than) the
record deadline, and since the clock only grows this bounds in
particular the clock at the entry of the callback. -/
theorem c1_no_fire_before_deadline (s : State) (hr : Reachable s)
    (hw : s.wpc = .inCallback) (x : Entry) (hx : s.hand = some x) :
    x.2 ≤ s.clock :=
  le_of_lt ((reach_Inv s hr).handClock x hx)

/-- C1 witness: in the concrete execution lsFire the worker enters the
callback of the record with deadline 5 at clock 10, and 5 ≤ 10. -/
theorem c1_witness :
    stFire.wpc = WPC.inCallback ∧ stFire.hand = some (0, 5) ∧
      (5 : Int) ≤ stFire.clock :=
  ⟨by decide, by decide,
   c1_no_fire_before_deadline stFire ⟨lsFire, by decide⟩ (by decide) (0, 5)
     (by decide)⟩

/-- C2: every record created by AddTimeout has its callback invoked at
most once over the lifetime of the daemon, and the record occurs at most
once in the heap plus the worker hand (pushed once at creation,
timeout.go line 150, popped at most once, line 205). -/
theorem c2_at_most_once (s : State) (hr : Reachable s) (i : Nat) (r : Rec)
    (hg : s.recs.get? i = some r) : r.fireCount ≤ 1 ∧ occ s i ≤ 1 :=
  ⟨(reach_Inv s hr).fireLe i r hg, (reach_Inv s hr).occLe i⟩

/-- C2 witness: the record of execution lsFire has been fired exactly
once and no longer occurs in the heap. -/
theorem c2_witness :
    (⟨5, false, 0, some 3, 1, false, false⟩ : Rec).fireCount ≤ 1 ∧
      occ stFire 0 ≤ 1 :=
  c2_at_most_once stFire ⟨lsFire, by decide⟩ 0 ⟨5, false, 0, some 3, 1, false, false⟩
    (by decide)

/-- C3 counterexample: the claim "any acquisition of the external mutex
by the worker happens before the return of Stop" is false.  In the
execution lsC3 the worker pops an uncancelled record and releases d.mu
(line 211); Stop then runs to completion and returns; the worker then
executes d.locker.Lock() (line 212).  The field extAfterStop counts
exactly the worker acquisitions of d.locker that happen after a Stop
has returned, and it is 1 here. -/
theorem c3_counterexample :
    run init lsC3 = some stC3 ∧ stC3.stopRet = true ∧ stC3.extAfterStop = 1 :=
  ⟨by decide, by decide, by decide⟩

/-- C3 (amended): after Stop returns, the worker acquires the external
mutex at most once more — only for a record that was already popped and
in flight when Stop returned — and whenever such a late acquisition has
happened the worker is at the stopped-recheck of line 213 or has
terminated, so it never fires a callback under that acquisition. -/
theorem c3_ext_after_stop (s : State) (hr : Reachable s) :
    s.extAfterStop ≤ 1 ∧
      (1 ≤ s.extAfterStop → s.wpc = .lockingInt2 ∨ s.wpc = .done) :=
  ⟨(reach_Inv s hr).extLe, fun hx => ((reach_Inv s hr).extOne hx).2⟩

/-- C3 witness: the counterexample execution has exactly one
post-return acquisition and sits at the stopped recheck. -/
theorem c3_witness :
    stC3.extAfterStop ≤ 1 ∧
      (1 ≤ stC3.extAfterStop → stC3.wpc = .lockingInt2 ∨ stC3.wpc = .done) :=
  c3_ext_after_stop stC3 ⟨lsC3, by decide⟩

/-- C4: after Stop returns no callback invocation begins (the call of
to.f() at line 233 is guarded by the stopped re-check of line 214 under
d.mu, and Stop cannot return while the worker holds d.mu), while a
callback that is already executing can always run to completion. -/
theorem c4_no_callback_after_stop (s : State) (hr : Reachable s) :
    (s.stopRet = true → step s .wFireBegin = none) ∧
    (s.wpc = .inCallback → (step s .wFireEnd).isSome = true) := by
  have hInv := reach_Inv s hr
  constructor
  · intro hsr
    have hstopped := hInv.stopRetStopped hsr
    have hmf := hInv.stopMu hstopped
    have hne : ¬ s.wpc = .preFire := by
      intro he
      rw [he] at hmf
      exact Bool.noConfusion hmf
    simp [step, hne]
  · intro hw
    obtain ⟨x, hx⟩ := hInv.handSome (by rw [hw]; rfl)
    obtain ⟨r, hrr, _⟩ := hInv.handrec x hx
    have hrr2 : s.recs[x.1]? = some r := by
      rw [← List.get?_eq_getElem?]
      exact hrr
    simp [step, hw, hx, hrr2]

/-- C4 witness: once Stop has returned, the fire transition is disabled
in the concrete post-Stop state. -/
theorem c4_witness : step stC4w Label.wFireBegin = none :=
  (c4_no_callback_after_stop stC4w ⟨lsC4w, by decide⟩).1 (by decide)

/-- C5 counterexample: the claim "for any two records R1 R2 with
deadlines t1 < t2, neither cancelled, R1's callback completes before
R2's begins" is false as stated: in the execution lsC5x the record with
deadline 1 fires completely, and only afterwards is a record with the
earlier deadline 0 added; the new record is uncancelled and its callback
has not begun, let alone completed. -/
theorem c5_counterexample :
    run init lsC5x = some stC5x ∧
      stC5x.recs.get? 0 = some ⟨1, false, 0, some 3, 1, true, false⟩ ∧
      stC5x.recs.get? 1 = some ⟨0, false, 10, none, 0, false, false⟩ :=
  ⟨by decide, by decide, by decide⟩

/-- C5 (amended): deadline ordering of callbacks holds for records that
are in the heap together — if R1 was added no later than the moment R2
was popped, R1's deadline is strictly smaller, and R1 was never
cancelled, then by the time R2's callback has begun, R1's callback has
already completed.  (The pop of line 205 takes the heap minimum, so R2
can only be popped when R1 is no longer pending.) -/
theorem c5_fire_order (s : State) (hr : Reachable s) (i2 : Nat) (r2 : Rec)
    (h2 : s.recs.get? i2 = some r2) (hfc : 1 ≤ r2.fireCount) (p : Nat)
    (hp : r2.poppedAt = some p) (i1 : Nat) (r1 : Rec)
    (h1 : s.recs.get? i1 = some r1) (ha : r1.addedAt ≤ p) (ht : r1.t < r2.t)
    (hc : r1.cancel = false) : r1.ended = true := by
  obtain ⟨p0, hp0, hprop⟩ := (reach_Inv s hr).firedOrder i2 r2 h2 hfc
  have hpe : p0 = p := Option.some.inj (hp0.symm.trans hp)
  subst hpe
  exact hprop i1 r1 h1 ha ht hc

/-- C5 witness: with deadlines 3 and 5 both added before either fires,
when the callback of the deadline-5 record has begun, the deadline-3
record's callback has completed. -/
theorem c5_witness : (⟨3, false, 0, some 4, 1, true, false⟩ : Rec).ended = true :=
  c5_fire_order stC5w ⟨lsC5w, by decide⟩ 1 ⟨5, false, 1, some 12, 1, false, false⟩
    (by decide) (by decide) 12 (by decide) 0 ⟨3, false, 0, some 4, 1, true, false⟩
    (by decide) (by decide) (by decide) (by decide)

/-- C9: the heap maintained by the daemon is a min-heap ordered by
deadline: in every reachable state, the record at index 0 of d.timeouts
has a deadline less than or equal to the deadline of every record in the
heap, so peek (timeout.go line 254) returns a record with the smallest
deadline. -/
theorem c9_heap_min_at_root (s : State) (hr : Reachable s) (m : Entry)
    (rest : List Entry) (hh : s.heap = m :: rest) (e : Entry)
    (he : e ∈ s.heap) : m.2 ≤ e.2 := by
  have h2 := head_le_of_heapInv s.heap (reach_Inv s hr).heapOk e he
  rw [hh] at h2
  simpa using h2

/-- C9 witness: after pushing deadlines 3 and 5 the root holds deadline
3, which is at most the deadline 5 of the other element. -/
theorem c9_witness : ((0, 3) : Entry).2 ≤ ((1, 5) : Entry).2 :=
  c9_heap_min_at_root stC9w ⟨lsC9w, by decide⟩ (0, 3) [(1, 5)] (by decide)
    (1, 5) (by decide)

/-- C10: the worker never accesses the heap out of bounds: whenever it
is about to peek (index 0, line 254) or pop, i.e. whenever it is inside
the inner loop of lines 181-203 past the empty-wait stage, the heap is
non-empty — even though the cond.Wait of line 174 is guarded by a
single if rather than a while loop (Go's sync.Cond.Wait returns only
after a Broadcast, and only the worker itself ever removes records). -/
theorem c10_no_empty_peek (s : State) (hr : Reachable s)
    (hw : s.wpc = .sleepCheck ∨ s.wpc = .sleeping) : s.heap ≠ [] :=
  (reach_Inv s hr).neNonempty hw

/-- C10 witness: in the concrete execution lsC6w the worker stands at
the peek with one pending record. -/
theorem c10_witness : stC6w.heap = [(0, 5)] ∧ stC6w.heap ≠ [] :=
  ⟨by decide, c10_no_empty_peek stC6w ⟨lsC6w, by decide⟩ (Or.inl (by decide))⟩

/-- C6 counterexample: the claim "the inner sleep loop exits exactly
when delta = deadline - now() satisfies delta ≤ 0" is false at
delta = 0: the exit test of line 190 is now.After(to.t), a strict
comparison, so with the clock exactly equal to the earliest deadline
(delta = 0) the worker does not exit the loop but unlocks and enters the
select (lines 193-197) for another sleep iteration. -/
theorem c6_counterexample :
    run init lsC6x = some stC6x ∧ stC6x.wpc = WPC.sleepCheck ∧
      stC6x.heap = [(0, 5)] ∧ stC6x.clock = 5 ∧
      step stC6x Label.wCheck = some stC6y ∧ stC6y.wpc = WPC.sleeping :=
  ⟨by decide, by decide, by decide, by decide, by decide, by decide⟩

/-- C6 (amended): the inner sleep-loop check of lines 188-203 exits
exactly when delta = deadline - now() satisfies delta < 0, that is,
when the deadline is strictly in the past (now.After(to.t), line 190);
when delta ≥ 0 — including delta = 0 — the worker goes to sleep for
another iteration.  The check transition is always enabled there, and
its outcome is sleeping if and only if now ≤ deadline. -/
theorem c6_sleep_loop_strict (s : State) (m : Entry) (rest : List Entry)
    (hw : s.wpc = WPC.sleepCheck) (hh : s.heap = m :: rest) (r : Rec)
    (hr : s.recs.get? (heapPop s.heap).1.1 = some r) :
    (step s Label.wCheck).isSome = true ∧
      ((step s Label.wCheck).map State.wpc = some WPC.sleeping ↔
        s.clock ≤ m.2) := by
  rw [hh] at hr
  have hr2 : s.recs[(heapPop (m :: rest)).1.1]? = some r := by
    rw [← List.get?_eq_getElem?]
    exact hr
  by_cases hc : m.2 < s.clock
  · by_cases hcan : r.cancel = true
    · refine ⟨by simp [step, hw, hh, hr2, hcan, hc], ?_⟩
      simp [step, hw, hh, hr2, hcan, hc]
    · refine ⟨by simp [step, hw, hh, hr2, hcan, hc], ?_⟩
      simp [step, hw, hh, hr2, hcan, hc]
  · refine ⟨by simp [step, hw, hh, hc], ?_⟩
    simp [step, hw, hh, hc]
    omega

/-- C6 witness: at clock 10 with earliest deadline 5 the check is
enabled and does not sleep (10 ≤ 5 is false). -/
theorem c6_witness :
    (step stC6w Label.wCheck).isSome = true ∧
      ((step stC6w Label.wCheck).map State.wpc = some WPC.sleeping ↔
        stC6w.clock ≤ ((0, 5) : Entry).2) :=
  c6_sleep_loop_strict stC6w (0, 5) [] (by decide) (by decide)
    ⟨5, false, 0, none, 0, false, false⟩ (by decide)

/-- C7 counterexample: the claim "after the callback returns the worker
releases the internal mutex before releasing the external mutex" is
false: the code runs d.locker.Unlock() at line 235 and d.mu.Unlock() at
line 237, in that order.  In the concrete post-callback state stC7 both
mutexes are held; after the one enabled release transition the external
mutex is already free while the internal mutex is still held. -/
theorem c7_counterexample :
    run init lsC7 = some stC7 ∧ stC7.wpc = WPC.fired ∧
      lockerHeld stC7.wpc = true ∧ muFree stC7.wpc = false ∧
      step stC7 Label.wUnlockExt = some stC7b ∧
      lockerHeld stC7b.wpc = false ∧ muFree stC7b.wpc = false :=
  ⟨by decide, by decide, by decide, by decide, by decide, by decide, by decide⟩

/-- C7 (amended): in every worker iteration that fires a callback, after
the callback returns the worker holds both mutexes and releases the
EXTERNAL mutex first (line 235) and the internal mutex second
(line 237): from the post-callback position the only enabled worker
transition is the external release, after which the external mutex is
free while the internal one is still held, and the following internal
release frees the internal mutex as well. -/
theorem c7_release_order (s : State) (hw : s.wpc = WPC.fired) :
    (lockerHeld s.wpc = true ∧ muFree s.wpc = false) ∧
    (∀ l, isWorkerLabel l = true → ¬ l = Label.wUnlockExt → step s l = none) ∧
    (∀ s2, step s Label.wUnlockExt = some s2 →
      lockerHeld s2.wpc = false ∧ muFree s2.wpc = false ∧
      ∀ s3, step s2 Label.wUnlockInt = some s3 →
        muFree s3.wpc = true ∧ lockerHeld s3.wpc = false) := by
  refine ⟨⟨by rw [hw]; rfl, by rw [hw]; rfl⟩, ?_, ?_⟩
  · intro l hwl hne
    cases l with
    | advance d => exact Bool.noConfusion hwl
    | clientAdd t => exact Bool.noConfusion hwl
    | clientCancel i => exact Bool.noConfusion hwl
    | clientStop => exact Bool.noConfusion hwl
    | wTop => simp [step, hw]
    | wWake => simp [step, hw]
    | wCheck => simp [step, hw]
    | wSleepTimer => simp [step, hw]
    | wSleepWake => simp [step, hw]
    | wLockExt => simp [step, hw]
    | wLockInt => simp [step, hw]
    | wFireBegin => simp [step, hw]
    | wFireEnd => simp [step, hw]
    | wUnlockExt => exact absurd rfl hne
    | wUnlockInt => simp [step, hw]
  · intro s2 hs2
    simp only [step] at hs2
    rw [if_pos (Or.inl hw)] at hs2
    cases hs2
    refine ⟨rfl, rfl, ?_⟩
    intro s3 hs3
    simp only [step] at hs3
    rw [if_pos trivial] at hs3
    cases hs3
    exact ⟨rfl, rfl⟩

/-- C7 witness: the release order at the concrete post-callback state
stC7: external mutex released first, internal second. -/
theorem c7_witness :
    (lockerHeld stC7.wpc = true ∧ muFree stC7.wpc = false) ∧
    (∀ l, isWorkerLabel l = true → ¬ l = Label.wUnlockExt → step stC7 l = none) ∧
    (∀ s2, step stC7 Label.wUnlockExt = some s2 →
      lockerHeld s2.wpc = false ∧ muFree s2.wpc = false ∧
      ∀ s3, step s2 Label.wUnlockInt = some s3 →
        muFree s3.wpc = true ∧ lockerHeld s3.wpc = false) :=
  c7_release_order stC7 (by decide)

/-- C8: Cancel (timeout.go 64-66) is a single atomic store of 1 into
the record's cancel flag: it is enabled in every state regardless of the
worker's position (it acquires no mutex of the Daemon, unlike AddTimeout
and Stop, which block while the worker holds d.mu) and changes exactly
the flag of that record; the flag update is idempotent; and no
transition of the system ever clears a set flag, so the flag is
monotonic 0 to 1. -/
theorem c8_cancel_semantics :
    (∀ s i r, s.recs.get? i = some r →
        step s (Label.clientCancel i) =
          some { s with recs := s.recs.set i (setCancel r), tick := s.tick + 1 }) ∧
    (∀ s i, s.recs.get? i = none → step s (Label.clientCancel i) = none) ∧
    (∀ r, setCancel (setCancel r) = setCancel r) ∧
    (∀ s l s2, step s l = some s2 → ∀ i r, s.recs.get? i = some r →
        r.cancel = true → ∃ r2, s2.recs.get? i = some r2 ∧ r2.cancel = true) := by
  refine ⟨?_, ?_, ?_, ?_⟩
  · intro s i r hg
    have hg2 : s.recs[i]? = some r := by
      rw [← List.get?_eq_getElem?]
      exact hg
    simp [step, hg2]
  · intro s i hg
    have hg2 : s.recs[i]? = none := by
      rw [← List.get?_eq_getElem?]
      exact hg
    simp [step, hg2]
  · intro r
    rfl
  · intro s l s2 hs i r hg hc
    exact cancel_mono s l s2 hs i r hg hc

end TimeoutModel
